import Mathlib

/-!
Verification of the maplibre-contour tile contour engine
(`src/utils.ts`, `src/types.ts`, `src/isobands-ms.ts`).

Modelling conventions for the shallow embedding:
* JS strings are lists of characters (`Str := List Char`); string literals
  enter the model through `String.data`.
* JS numbers are modelled as `Int` where the code treats them as integers
  (elevations, zoom levels, option scalars) and as `ℚ` where genuine
  division occurs (coordinate scaling, the jittered-grid arithmetic).
  `NaN` is modelled as `none` in `Option Int`.
* Calls into the external `marching-squares` library (`isoLines`,
  `isoBands`) are modelled as oracle parameters: every theorem about
  `generateIsolinesMS` / `generateIsobands` quantifies over the oracle.
  An oracle result of `none` models a thrown exception (the `catch` path).
-/

namespace MC

/-- JS strings, modelled as lists of characters. -/
abbrev Str := List Char

/-- JS `s.split(sep)` for a one-character separator:
`"".split(x) = [""]`, separators at the ends produce empty fields. -/
def jsSplit (sep : Char) : Str → List Str
  | [] => [[]]
  | c :: rest =>
    match jsSplit sep rest with
    | [] => [[]]
    | h :: t => if c = sep then [] :: h :: t else (c :: h) :: t

/-- JS `parts.join(sep)` for a one-character separator. -/
def jsJoin (sep : Char) : List Str → Str
  | [] => []
  | [p] => p
  | p :: rest => p ++ sep :: jsJoin sep (rest)

theorem jsSplit_ne_nil (sep : Char) (s : Str) : jsSplit sep s ≠ [] := by
  cases s with
  | nil => simp [jsSplit]
  | cons c rest =>
    cases hh : jsSplit sep rest with
    | nil => simp [jsSplit, hh]
    | cons h' t =>
      simp only [jsSplit, hh]
      split <;> simp

theorem jsSplit_of_not_mem {sep : Char} {s : Str} (h : sep ∉ s) :
    jsSplit sep s = [s] := by
  induction s with
  | nil => rfl
  | cons c rest ih =>
    have hc : ¬c = sep := fun hc => h (hc ▸ List.mem_cons_self c rest)
    have hr : sep ∉ rest := fun hr => h (List.mem_cons_of_mem _ hr)
    simp only [jsSplit, ih hr, if_neg hc]

theorem jsSplit_append_sep {sep : Char} {p : Str} (hp : sep ∉ p) (t : Str) :
    jsSplit sep (p ++ sep :: t) = p :: jsSplit sep t := by
  induction p with
  | nil =>
    simp only [List.nil_append, jsSplit]
    rcases h : jsSplit sep t with _ | ⟨h', t'⟩
    · exact absurd h (jsSplit_ne_nil sep t)
    · simp
  | cons c rest ih =>
    have hc : ¬c = sep := fun hc => hp (hc ▸ List.mem_cons_self c rest)
    have hr : sep ∉ rest := fun hr => hp (List.mem_cons_of_mem _ hr)
    show jsSplit sep (c :: (rest ++ sep :: t)) = (c :: rest) :: jsSplit sep t
    rw [jsSplit, ih hr]
    simp [hc]

/-- `split` is a left inverse of `join` when no part contains the separator. -/
theorem jsSplit_jsJoin {sep : Char} {parts : List Str} (hne : parts ≠ [])
    (hmem : ∀ p ∈ parts, sep ∉ p) :
    jsSplit sep (jsJoin sep parts) = parts := by
  induction parts with
  | nil => exact absurd rfl hne
  | cons p rest ih =>
    cases rest with
    | nil =>
      simpa [jsJoin] using jsSplit_of_not_mem (hmem p (List.mem_cons_self p []))
    | cons q rest' =>
      have hp : sep ∉ p := hmem p (List.mem_cons_self _ _)
      have hrest : ∀ x ∈ q :: rest', sep ∉ x := fun x hx =>
        hmem x (List.mem_cons_of_mem _ hx)
      calc jsSplit sep (jsJoin sep (p :: q :: rest'))
          = jsSplit sep (p ++ sep :: jsJoin sep (q :: rest')) := rfl
        _ = p :: jsSplit sep (jsJoin sep (q :: rest')) := jsSplit_append_sep hp _
        _ = p :: q :: rest' := by rw [ih (by simp) hrest]

theorem mem_jsJoin {sep : Char} {parts : List Str} {c : Char}
    (h : c ∈ jsJoin sep parts) : c = sep ∨ ∃ p ∈ parts, c ∈ p := by
  induction parts with
  | nil => simp [jsJoin] at h
  | cons p rest ih =>
    cases rest with
    | nil =>
      simp only [jsJoin] at h
      exact Or.inr ⟨p, List.mem_cons_self _ _, h⟩
    | cons q rest' =>
      simp only [jsJoin, List.mem_append, List.mem_cons] at h
      rcases h with h | h | h
      · exact Or.inr ⟨p, List.mem_cons_self _ _, h⟩
      · exact Or.inl h
      · rcases ih h with h' | ⟨x, hx, hcx⟩
        · exact Or.inl h'
        · exact Or.inr ⟨x, List.mem_cons_of_mem _ hx, hcx⟩

/-! ### Decimal printing and parsing of integers (JS `String(n)` / `Number(s)`) -/

/-- The decimal digit character for `n < 10`. -/
def digitCh (n : Nat) : Char := Char.ofNat (48 + n)

/-- Fuel-based digit recursion (structural, so that the kernel can
evaluate it; the fuel `n + 1` always suffices). -/
def natToStrGo : Nat → Nat → Str
  | 0, _ => []
  | fuel + 1, n =>
    if n < 10 then [digitCh n] else natToStrGo fuel (n / 10) ++ [digitCh (n % 10)]

/-- `String(n)` for a natural number. -/
def natToStr (n : Nat) : Str := natToStrGo (n + 1) n

theorem natToStrGo_congr : ∀ {f1 : Nat} {f2 n : Nat}, n < f1 → n < f2 →
    natToStrGo f1 n = natToStrGo f2 n := by
  intro f1
  induction f1 with
  | zero => intro f2 n h1 _; omega
  | succ g ih =>
    intro f2 n h1 h2
    cases f2 with
    | zero => omega
    | succ h =>
      show (if n < 10 then [digitCh n] else natToStrGo g (n / 10) ++ [digitCh (n % 10)]) =
        (if n < 10 then [digitCh n] else natToStrGo h (n / 10) ++ [digitCh (n % 10)])
      split
      · rfl
      · next hn =>
        rw [ih (show n / 10 < g from by
            have := Nat.div_lt_self (show 0 < n from by omega) (show 1 < 10 from by omega)
            omega)
          (show n / 10 < h from by
            have := Nat.div_lt_self (show 0 < n from by omega) (show 1 < 10 from by omega)
            omega)]

/-- The defining recurrence of `natToStr`. -/
theorem natToStr_eq (n : Nat) : natToStr n =
    if n < 10 then [digitCh n] else natToStr (n / 10) ++ [digitCh (n % 10)] := by
  show natToStrGo (n + 1) n = _
  show (if n < 10 then [digitCh n] else natToStrGo n (n / 10) ++ [digitCh (n % 10)]) = _
  split
  · rfl
  · next hn =>
    rw [natToStrGo_congr (show n / 10 < n from Nat.div_lt_self (by omega) (by omega))
      (Nat.lt_succ_self _)]
    rfl

/-- JS `String(i)` for an integer. -/
def intToStr (i : Int) : Str :=
  if i < 0 then '-' :: natToStr (-i).toNat else natToStr i.toNat

def digitVal (c : Char) : Option Nat :=
  if 48 ≤ c.toNat ∧ c.toNat ≤ 57 then some (c.toNat - 48) else none

def parseDigitsAux (acc : Nat) : Str → Option Nat
  | [] => some acc
  | c :: rest =>
    match digitVal c with
    | none => none
    | some d => parseDigitsAux (acc * 10 + d) rest

/-- JS `Number(s)` restricted to the integer fragment used by this code:
the empty string is `0`, an optional minus sign followed by decimal digits
is that integer, anything else is `NaN` (modelled as `none`). -/
def jsNumber (s : Str) : Option Int :=
  match s with
  | [] => some 0
  | c :: rest =>
    if c = '-' then
      if rest = [] then none else (parseDigitsAux 0 rest).map (fun n => -(n : Int))
    else (parseDigitsAux 0 (c :: rest)).map (fun n => (n : Int))

theorem digitCh_toNat {n : Nat} (h : n < 10) : (digitCh n).toNat = 48 + n := by
  interval_cases n <;> decide

theorem digitVal_digitCh {n : Nat} (h : n < 10) : digitVal (digitCh n) = some n := by
  interval_cases n <;> decide

theorem natToStr_ne_nil (n : Nat) : natToStr n ≠ [] := by
  rw [natToStr_eq]
  split <;> simp

theorem natToStr_digits (n : Nat) :
    ∀ c ∈ natToStr n, 48 ≤ c.toNat ∧ c.toNat ≤ 57 := by
  induction n using Nat.strong_induction_on with
  | _ n ih =>
    rw [natToStr_eq]
    split
    · next h =>
      intro c hc
      simp only [List.mem_singleton] at hc
      subst hc
      rw [digitCh_toNat h]
      omega
    · next h =>
      intro c hc
      rcases List.mem_append.1 hc with h1 | h1
      · exact ih (n / 10) (Nat.div_lt_self (by omega) (by omega)) c h1
      · simp only [List.mem_singleton] at h1
        subst h1
        rw [digitCh_toNat (Nat.mod_lt _ (by omega))]
        have := Nat.mod_lt n (y := 10) (by omega)
        omega

theorem parseDigitsAux_append (acc : Nat) (a b : Str) :
    parseDigitsAux acc (a ++ b) =
      match parseDigitsAux acc a with
      | none => none
      | some m => parseDigitsAux m b := by
  induction a generalizing acc with
  | nil => simp [parseDigitsAux]
  | cons c rest ih =>
    simp only [List.cons_append, parseDigitsAux]
    cases digitVal c with
    | none => rfl
    | some d => exact ih (acc * 10 + d)

theorem parseDigitsAux_natToStr (n : Nat) :
    ∀ acc, parseDigitsAux acc (natToStr n) =
      some (acc * 10 ^ (natToStr n).length + n) := by
  induction n using Nat.strong_induction_on with
  | _ n ih =>
    intro acc
    rw [natToStr_eq]
    split
    · next h =>
      simp [parseDigitsAux, digitVal_digitCh h]
    · next h =>
      rw [parseDigitsAux_append, ih (n / 10) (Nat.div_lt_self (by omega) (by omega)) acc]
      have h10 : n % 10 < 10 := Nat.mod_lt _ (by omega)
      simp only [parseDigitsAux, digitVal_digitCh h10, List.length_append,
        List.length_singleton]
      have : (acc * 10 ^ (natToStr (n / 10)).length + n / 10) * 10 + n % 10 =
          acc * 10 ^ ((natToStr (n / 10)).length + 1) + n := by
        rw [pow_succ]
        have := Nat.div_add_mod n 10
        ring_nf
        omega
      rw [this]

theorem parseDigitsAux_natToStr_zero (n : Nat) :
    parseDigitsAux 0 (natToStr n) = some n := by
  simpa using parseDigitsAux_natToStr n 0

/-- `Number(String(i)) = i`: decimal round trip for every integer. -/
theorem jsNumber_intToStr (i : Int) : jsNumber (intToStr i) = some i := by
  by_cases hi : i < 0
  · have h1 : intToStr i = '-' :: natToStr (-i).toNat := by rw [intToStr, if_pos hi]
    rw [h1]
    have hne : natToStr (-i).toNat ≠ [] := natToStr_ne_nil _
    simp only [jsNumber]
    rw [if_pos trivial, if_neg hne, parseDigitsAux_natToStr_zero]
    simp
    omega
  · rcases h : natToStr i.toNat with _ | ⟨c, rest⟩
    · exact absurd h (natToStr_ne_nil _)
    · have hc : 48 ≤ c.toNat ∧ c.toNat ≤ 57 := by
        apply natToStr_digits i.toNat
        rw [h]; exact List.mem_cons_self _ _
      have hcm : ¬c = '-' := by
        intro hcm
        subst hcm
        revert hc
        decide
      have h1 : intToStr i = natToStr i.toNat := by rw [intToStr, if_neg hi]
      rw [h1, h]
      simp only [jsNumber]
      rw [if_neg hcm, ← h, parseDigitsAux_natToStr_zero]
      simp
      omega

theorem intToStr_chars (i : Int) :
    ∀ c ∈ intToStr i, (48 ≤ c.toNat ∧ c.toNat ≤ 57) ∨ c.toNat = 45 := by
  intro c hc
  simp only [intToStr] at hc
  split at hc
  · rcases List.mem_cons.1 hc with h | h
    · subst h; right; rfl
    · exact Or.inl (natToStr_digits _ c h)
  · exact Or.inl (natToStr_digits _ c hc)

/-! ### `encodeURIComponent` / `decodeURIComponent`, modelled for ASCII code points -/

/-- The characters `encodeURIComponent` leaves unescaped:
`A-Z a-z 0-9 - _ . ! ~ * ' ( )`. -/
def isUnreservedURI (c : Char) : Bool :=
  decide ((65 ≤ c.toNat ∧ c.toNat ≤ 90) ∨ (97 ≤ c.toNat ∧ c.toNat ≤ 122) ∨
    (48 ≤ c.toNat ∧ c.toNat ≤ 57) ∨ c.toNat = 45 ∨ c.toNat = 95 ∨ c.toNat = 46 ∨
    c.toNat = 33 ∨ c.toNat = 126 ∨ c.toNat = 42 ∨ c.toNat = 39 ∨ c.toNat = 40 ∨
    c.toNat = 41)

/-- Upper-case hexadecimal digit for `n < 16`. -/
def hexDigitCh (n : Nat) : Char :=
  if n < 10 then Char.ofNat (48 + n) else Char.ofNat (55 + n)

def uriEncodeChar (c : Char) : Str :=
  if isUnreservedURI c then [c]
  else ['%', hexDigitCh (c.toNat / 16), hexDigitCh (c.toNat % 16)]

/-- `encodeURIComponent`, for strings of ASCII (single-UTF-8-byte) characters. -/
def uriEncode : Str → Str
  | [] => []
  | c :: rest => uriEncodeChar c ++ uriEncode rest

def hexVal (c : Char) : Option Nat :=
  if 48 ≤ c.toNat ∧ c.toNat ≤ 57 then some (c.toNat - 48)
  else if 65 ≤ c.toNat ∧ c.toNat ≤ 70 then some (c.toNat - 55)
  else if 97 ≤ c.toNat ∧ c.toNat ≤ 102 then some (c.toNat - 87)
  else none

/-- `decodeURIComponent`, for ASCII input; `none` models a thrown `URIError`. -/
def uriDecode : Str → Option Str
  | [] => some []
  | c :: rest =>
    if c = '%' then
      match rest with
      | h1 :: h2 :: rest2 =>
        match hexVal h1, hexVal h2 with
        | some a, some b => (uriDecode rest2).map (fun t => Char.ofNat (a * 16 + b) :: t)
        | _, _ => none
      | _ => none
    else (uriDecode rest).map (fun t => c :: t)

/-- A string of ASCII code points (the fragment the URI model is faithful on). -/
def StrASCII (s : Str) : Prop := ∀ c ∈ s, c.toNat < 128

instance (s : Str) : Decidable (StrASCII s) := by
  unfold StrASCII
  infer_instance

theorem hexVal_hexDigitCh {n : Nat} (h : n < 16) : hexVal (hexDigitCh n) = some n := by
  interval_cases n <;> decide

theorem uriDecode_cons_not_pct {c : Char} (hcp : ¬c = '%') (rest : Str) :
    uriDecode (c :: rest) = (uriDecode rest).map (fun t => c :: t) := by
  cases rest with
  | nil => simp [uriDecode, hcp]
  | cons h1 t1 =>
    cases t1 with
    | nil => simp [uriDecode, hcp]
    | cons h2 t2 => simp [uriDecode, hcp]

theorem uriDecode_pct (h1 h2 : Char) (rest2 : Str) :
    uriDecode ('%' :: h1 :: h2 :: rest2) =
      match hexVal h1, hexVal h2 with
      | some a, some b => (uriDecode rest2).map (fun t => Char.ofNat (a * 16 + b) :: t)
      | _, _ => none := by
  simp [uriDecode]

theorem hexDigitCh_toNat {n : Nat} (h : n < 16) :
    (48 ≤ (hexDigitCh n).toNat ∧ (hexDigitCh n).toNat ≤ 57) ∨
      (65 ≤ (hexDigitCh n).toNat ∧ (hexDigitCh n).toNat ≤ 70) := by
  interval_cases n <;> decide

theorem char_ofNat_toNat {c : Char} (h : c.toNat < 128) :
    Char.ofNat c.toNat = c := by
  have hv : c.toNat.isValidChar := Or.inl (by omega)
  simp only [Char.ofNat, hv, dite_true]
  rfl

theorem uriDecode_uriEncode {s : Str} (h : StrASCII s) :
    uriDecode (uriEncode s) = some s := by
  induction s with
  | nil => rfl
  | cons c rest ih =>
    have hc : c.toNat < 128 := h c (List.mem_cons_self _ _)
    have hrest : StrASCII rest := fun x hx => h x (List.mem_cons_of_mem _ hx)
    show uriDecode (uriEncodeChar c ++ uriEncode rest) = some (c :: rest)
    by_cases hu : isUnreservedURI c
    · have hcp : ¬c = '%' := by
        intro hcp
        subst hcp
        revert hu
        decide
      rw [uriEncodeChar, if_pos hu, List.singleton_append,
        uriDecode_cons_not_pct hcp, ih hrest]
      rfl
    · have h16a : c.toNat / 16 < 16 := by omega
      have h16b : c.toNat % 16 < 16 := Nat.mod_lt _ (by omega)
      rw [uriEncodeChar, if_neg hu, List.cons_append, List.cons_append,
        List.cons_append, List.nil_append, uriDecode_pct,
        hexVal_hexDigitCh h16a, hexVal_hexDigitCh h16b, ih hrest]
      have hdm : c.toNat / 16 * 16 + c.toNat % 16 = c.toNat := by omega
      simp only [Option.map_some', hdm, char_ofNat_toNat hc]

/-- Every character emitted by `uriEncode` on ASCII input is unreserved, `%`,
or a hex digit; in particular it is never `&` (38), `=` (61), nor `?` (63). -/
theorem uriEncode_chars {s : Str} (hs : StrASCII s) {c : Char} (h : c ∈ uriEncode s) :
    c.toNat ≠ 38 ∧ c.toNat ≠ 61 ∧ c.toNat ≠ 63 := by
  induction s with
  | nil => simp [uriEncode] at h
  | cons d rest ih =>
    have hd : d.toNat < 128 := hs d (List.mem_cons_self _ _)
    have hrest : StrASCII rest := fun x hx => hs x (List.mem_cons_of_mem _ hx)
    simp only [uriEncode, List.mem_append] at h
    rcases h with h | h
    · simp only [uriEncodeChar] at h
      split at h
      · next hu =>
        simp only [List.mem_singleton] at h
        subst h
        simp only [isUnreservedURI, decide_eq_true_eq] at hu
        omega
      · rcases List.mem_cons.1 h with h1 | h1
        · subst h1; decide
        · rcases List.mem_cons.1 h1 with h2 | h2
          · subst h2
            rcases hexDigitCh_toNat (show d.toNat / 16 < 16 from by omega) with h3 | h3 <;> omega
          · rcases List.mem_cons.1 h2 with h3 | h3
            · subst h3
              rcases hexDigitCh_toNat (Nat.mod_lt d.toNat (show 0 < 16 from by omega)) with h4 | h4 <;> omega
            · simp at h3
    · exact ih hrest h

/-! ### `String.prototype.trim` and the level-string parser shared by
`generateIsolinesMS` (src/types.ts) and `generateIsobands` (src/isobands-ms.ts) -/

/-- JS whitespace for `trim` (ASCII fragment). -/
def isWS (c : Char) : Bool := c = ' ' ∨ c = '\t' ∨ c = '\n' ∨ c = '\r'

/-- JS `s.trim()`. -/
def jsTrim (s : Str) : Str :=
  ((s.dropWhile isWS).reverse.dropWhile isWS).reverse

/-- `levels.split(",").map((s) => Number(s.trim())).filter((n) => !isNaN(n))`:
split on commas, trim, convert with `Number`, drop the `NaN` entries. -/
def parseLevelsStr (s : Str) : List Int :=
  (((jsSplit ',' s).map (fun e => jsNumber (jsTrim e))).filter Option.isSome).filterMap id

/-- The `levels: number[] | string` argument. -/
inductive Levels where
  | arr (l : List Int)
  | ofStr (s : Str)

/-- The `levelArray` computed at the top of both functions. -/
def levelArray : Levels → List Int
  | .arr l => l
  | .ofStr s => parseLevelsStr s

/-! ### HeightTile, grids and geometry conversion -/

/-- The slice of the `HeightTile` interface these functions use:
`width`, `height` and elevation lookup `get(x, y)`. -/
structure HeightTile where
  width : Nat
  height : Nat
  get : Nat → Nat → Int

/-- The row-major `data[y][x] = tile.get(x, y)` grid both functions build. -/
def tileGrid (t : HeightTile) : List (List Int) :=
  (List.range t.height).map (fun y => (List.range t.width).map (fun x => t.get x y))

/-- JS `Math.round` (half-up) on the exact rational coordinate model. -/
def jsRound (q : ℚ) : Int := ⌊q + 1 / 2⌋

/-- Flatten one path `[[x, y], ...]` into
`[round(x*scale), round(y*scale), ...]` (the inner coordinate loop). -/
def flatCoords (scale : ℚ) : List (ℚ × ℚ) → List Int
  | [] => []
  | (x, y) :: rest => jsRound (x * scale) :: jsRound (y * scale) :: flatCoords scale rest

/-- JS object assignment `result[key] = value` on an association-list model:
replaces the value of an existing key in place, appends a new key. -/
def setKey {κ β : Type} [DecidableEq κ] (k : κ) (v : β) : List (κ × β) → List (κ × β)
  | [] => [(k, v)]
  | e :: rest => if e.1 = k then (k, v) :: rest else e :: setKey k v rest

/-- Oracle type standing for `isoLines(data, thresholds, {linearRing: false,
noFrame: true})` from the external marching-squares library: per threshold, a
list of lines, each a list of `[x, y]` points. `none` models a throw. -/
abbrev IsoLinesFn := List (List Int) → List Int → Option (List (List (List (ℚ × ℚ))))

/-- Oracle type standing for `isoBands(data, thresholds, bandwidths,
{linearRing: true, noFrame: true})`: per threshold, a list of ring paths.
`none` models a throw. -/
abbrev IsoBandsFn := List (List Int) → List Int → List Int → Option (List (List (List (ℚ × ℚ))))

/-- The body of the `for (const level of sortedLevels)` loop of
`generateIsolinesMS`. -/
def isolinesStep (isoLinesO : IsoLinesFn) (data : List (List Int)) (scale : ℚ)
    (result : List (Int × List (List Int))) (level : Int) :
    List (Int × List (List Int)) :=
  match isoLinesO data [level] with
  | none => result   -- the catch path: the level is skipped
  | some linesResult =>
    -- `if (linesResult.length > 0) { const lines = linesResult[0]; ... }`
    let lines := linesResult.headD []
    let geometries := (lines.map (flatCoords scale)).filter (fun g => 4 ≤ g.length)
    if geometries.isEmpty then result else setKey level geometries result

/-- The per-level loop of `generateIsolinesMS` over the sorted levels. -/
def isolinesCore (isoLinesO : IsoLinesFn) (sortedLevels : List Int)
    (data : List (List Int)) (scale : ℚ) : List (Int × List (List Int)) :=
  sortedLevels.foldl (isolinesStep isoLinesO data scale) []

/-- src/types.ts `generateIsolinesMS(levels, tile, extent, _buffer)`. -/
def generateIsolinesMS (isoLinesO : IsoLinesFn) (levels : Levels)
    (tile : HeightTile) (extent : Int) : List (Int × List (List Int)) :=
  let levelArr := levelArray levels
  if levelArr.isEmpty then [] else
  let sortedLevels := levelArr.insertionSort (· ≤ ·)
  let data := tileGrid tile
  let scale : ℚ := (extent : ℚ) / ((tile.width : ℚ) - 1)
  isolinesCore isoLinesO sortedLevels data scale

/-- The range key `${lowerLevel}:${upperLevel}` (colon separator, so negative
bounds stay unambiguous). -/
def rangeKeyStr (lower upper : Int) : Str := intToStr lower ++ ':' :: intToStr upper

/-- The body of the per-range loop of `generateIsobands`. -/
def isobandsStep (isoBandsO : IsoBandsFn) (data : List (List Int)) (scale : ℚ)
    (result : List (Str × List (List Int))) (lu : Int × Int) :
    List (Str × List (List Int)) :=
  let rangeKey := rangeKeyStr lu.1 lu.2
  match isoBandsO data [lu.1] [lu.2 - lu.1] with
  | none => result   -- the catch path: the range is skipped
  | some bands =>
    -- `if (bands.length > 0 && bands[0].length > 0) { for path of bands[0] }`
    let polygons := ((bands.headD []).map (flatCoords scale)).filter (fun p => 6 ≤ p.length)
    if polygons.isEmpty then result else setKey rangeKey polygons result

/-- The per-range loop of `generateIsobands` over adjacent pairs of the
sorted levels. -/
def isobandsCore (isoBandsO : IsoBandsFn) (pairs : List (Int × Int))
    (data : List (List Int)) (scale : ℚ) : List (Str × List (List Int)) :=
  pairs.foldl (isobandsStep isoBandsO data scale) []

/-- src/isobands-ms.ts `generateIsobands(levels, tile, extent, _buffer)`. -/
def generateIsobands (isoBandsO : IsoBandsFn) (levels : Levels)
    (tile : HeightTile) (extent : Int) : List (Str × List (List Int)) :=
  let levelArr := levelArray levels
  if levelArr.isEmpty then [] else
  let sortedLevels := levelArr.insertionSort (· ≤ ·)
  let data := tileGrid tile
  let scale : ℚ := (extent : ℚ) / ((tile.width : ℚ) - 1)
  isobandsCore isoBandsO (sortedLevels.zip sortedLevels.tail) data scale

theorem mem_setKey {κ β : Type} [DecidableEq κ] {k : κ} {v : β} {l : List (κ × β)}
    {e : κ × β} (h : e ∈ setKey k v l) : e = (k, v) ∨ e ∈ l := by
  induction l with
  | nil => simpa [setKey] using h
  | cons f rest ih =>
    simp only [setKey] at h
    split at h
    · rcases List.mem_cons.1 h with h1 | h1
      · exact Or.inl h1
      · exact Or.inr (List.mem_cons_of_mem _ h1)
    · rcases List.mem_cons.1 h with h1 | h1
      · exact Or.inr (h1 ▸ List.mem_cons_self _ _)
      · rcases ih h1 with h2 | h2
        · exact Or.inl h2
        · exact Or.inr (List.mem_cons_of_mem _ h2)

theorem setKey_length {κ β : Type} [DecidableEq κ] (k : κ) (v : β) (l : List (κ × β)) :
    (setKey k v l).length ≤ l.length + 1 := by
  induction l with
  | nil => simp [setKey]
  | cons f rest ih =>
    simp only [setKey]
    split <;> simp only [List.length_cons] <;> omega

theorem mem_isolinesStep (isoLinesO : IsoLinesFn) (data : List (List Int)) (scale : ℚ)
    (acc : List (Int × List (List Int))) (level : Int) {f : Int × List (List Int)}
    (hf : f ∈ isolinesStep isoLinesO data scale acc level) :
    f ∈ acc ∨ (f.1 = level ∧ f.2 ≠ [] ∧ ∀ g ∈ f.2, 4 ≤ g.length) := by
  rw [isolinesStep] at hf
  rcases hora : isoLinesO data [level] with _ | linesResult
  · rw [hora] at hf
    exact Or.inl hf
  · rw [hora] at hf
    simp only at hf
    split at hf
    · exact Or.inl hf
    · next hne =>
      rcases mem_setKey hf with h1 | h1
      · subst h1
        refine Or.inr ⟨rfl, by simpa [List.isEmpty_iff] using hne, ?_⟩
        intro g hg
        exact of_decide_eq_true (List.mem_filter.1 hg).2
      · exact Or.inl h1

theorem mem_isobandsStep (isoBandsO : IsoBandsFn) (data : List (List Int)) (scale : ℚ)
    (acc : List (Str × List (List Int))) (lu : Int × Int) {f : Str × List (List Int)}
    (hf : f ∈ isobandsStep isoBandsO data scale acc lu) :
    f ∈ acc ∨ (f.1 = rangeKeyStr lu.1 lu.2 ∧ f.2 ≠ [] ∧ ∀ p ∈ f.2, 6 ≤ p.length) := by
  rw [isobandsStep] at hf
  rcases hora : isoBandsO data [lu.1] [lu.2 - lu.1] with _ | bands
  · rw [hora] at hf
    exact Or.inl hf
  · rw [hora] at hf
    simp only at hf
    split at hf
    · exact Or.inl hf
    · next hne =>
      rcases mem_setKey hf with h1 | h1
      · subst h1
        refine Or.inr ⟨rfl, by simpa [List.isEmpty_iff] using hne, ?_⟩
        intro p hp
        exact of_decide_eq_true (List.mem_filter.1 hp).2
      · exact Or.inl h1

theorem isolinesCore_inv (isoLinesO : IsoLinesFn) (data : List (List Int)) (scale : ℚ) :
    ∀ (ls : List Int) (acc : List (Int × List (List Int))),
      (∀ e ∈ acc, e.2 ≠ [] ∧ ∀ g ∈ e.2, 4 ≤ g.length) →
      ∀ e ∈ ls.foldl (isolinesStep isoLinesO data scale) acc,
        e.2 ≠ [] ∧ ∀ g ∈ e.2, 4 ≤ g.length := by
  intro ls
  induction ls with
  | nil => intro acc hacc e he; exact hacc e he
  | cons l rest ih =>
    intro acc hacc e he
    refine ih _ ?_ e he
    intro f hf
    rcases mem_isolinesStep _ _ _ _ _ hf with h1 | h1
    · exact hacc f h1
    · exact h1.2

theorem isobandsCore_inv (isoBandsO : IsoBandsFn) (data : List (List Int)) (scale : ℚ) :
    ∀ (pairs : List (Int × Int)) (acc : List (Str × List (List Int))),
      (∀ e ∈ acc, e.2 ≠ [] ∧ ∀ p ∈ e.2, 6 ≤ p.length) →
      ∀ e ∈ pairs.foldl (isobandsStep isoBandsO data scale) acc,
        e.2 ≠ [] ∧ ∀ p ∈ e.2, 6 ≤ p.length := by
  intro pairs
  induction pairs with
  | nil => intro acc hacc e he; exact hacc e he
  | cons lu rest ih =>
    intro acc hacc e he
    refine ih _ ?_ e he
    intro f hf
    rcases mem_isobandsStep _ _ _ _ _ hf with h1 | h1
    · exact hacc f h1
    · exact h1.2

theorem isobandsCore_keys (isoBandsO : IsoBandsFn) (data : List (List Int)) (scale : ℚ) :
    ∀ (pairs : List (Int × Int)) (acc : List (Str × List (List Int))),
      ∀ e ∈ pairs.foldl (isobandsStep isoBandsO data scale) acc,
        e.1 ∈ acc.map Prod.fst ∨ ∃ lu ∈ pairs, e.1 = rangeKeyStr lu.1 lu.2 := by
  intro pairs
  induction pairs with
  | nil =>
    intro acc e he
    exact Or.inl (List.mem_map.2 ⟨e, he, rfl⟩)
  | cons lu rest ih =>
    intro acc e he
    rcases ih _ e he with h1 | ⟨lu', hlu', hk⟩
    · rcases List.mem_map.1 h1 with ⟨f, hf, hfk⟩
      rcases mem_isobandsStep _ _ _ _ _ hf with h2 | h2
      · exact Or.inl (List.mem_map.2 ⟨f, h2, hfk⟩)
      · exact Or.inr ⟨lu, List.mem_cons_self _ _, hfk ▸ h2.1⟩
    · exact Or.inr ⟨lu', List.mem_cons_of_mem _ hlu', hk⟩

theorem isobandsStep_length (isoBandsO : IsoBandsFn) (data : List (List Int)) (scale : ℚ)
    (acc : List (Str × List (List Int))) (lu : Int × Int) :
    (isobandsStep isoBandsO data scale acc lu).length ≤ acc.length + 1 := by
  rw [isobandsStep]
  rcases isoBandsO data [lu.1] [lu.2 - lu.1] with _ | bands
  · exact Nat.le_add_right _ 1
  · simp only
    split
    · exact Nat.le_add_right _ 1
    · exact setKey_length _ _ _

theorem isobandsCore_length (isoBandsO : IsoBandsFn) (data : List (List Int)) (scale : ℚ) :
    ∀ (pairs : List (Int × Int)) (acc : List (Str × List (List Int))),
      (pairs.foldl (isobandsStep isoBandsO data scale) acc).length ≤
        acc.length + pairs.length := by
  intro pairs
  induction pairs with
  | nil => intro acc; simp
  | cons lu rest ih =>
    intro acc
    calc (List.foldl (isobandsStep isoBandsO data scale)
            (isobandsStep isoBandsO data scale acc lu) rest).length
        ≤ (isobandsStep isoBandsO data scale acc lu).length + rest.length := ih _
      _ ≤ acc.length + 1 + rest.length := by
          have := isobandsStep_length isoBandsO data scale acc lu
          omega
      _ = acc.length + (lu :: rest).length := by simp [List.length_cons]; omega

/-! ### Concrete instances used by the witnesses -/

attribute [local semireducible] Rat.add Rat.mul Rat.sub Rat.inv Rat.ofScientific

/-- Demo marching-squares lines oracle: one threshold entry with a 2-point
line (kept) and a 1-point line (dropped). -/
def demoIsoLines : IsoLinesFn := fun _ _ =>
  some [[[((0 : ℚ), (0 : ℚ)), ((1 : ℚ), (1 : ℚ))], [((2 : ℚ), (2 : ℚ))]]]

/-- Demo marching-squares bands oracle: one threshold entry with a single
3-point ring. -/
def demoIsoBands : IsoBandsFn := fun _ _ _ =>
  some [[[((0 : ℚ), (0 : ℚ)), ((0 : ℚ), (1 : ℚ)), ((1 : ℚ), (1 : ℚ))]]]

/-- Demo 2x2 flat tile. -/
def demoTile : HeightTile := ⟨2, 2, fun _ _ => 0⟩

/-! ### Claims C4, C6, C7, C9 -/

/-- C4: every key of the mapping returned by `generateIsobands` is
`"<lower>:<upper>"` (colon separator) for an adjacent pair `(lower, upper)`
of the ascending-sorted levels; a list of N levels yields at most N-1 range
keys; and a one-element or empty level list yields the empty mapping. -/
theorem c4_isoband_range_keys (isoBandsO : IsoBandsFn) (levels : Levels)
    (tile : HeightTile) (extent : Int) :
    (∀ e ∈ generateIsobands isoBandsO levels tile extent,
      ∃ lu ∈ ((levelArray levels).insertionSort (· ≤ ·)).zip
          ((levelArray levels).insertionSort (· ≤ ·)).tail,
        e.1 = rangeKeyStr lu.1 lu.2) ∧
    (generateIsobands isoBandsO levels tile extent).length ≤
      (levelArray levels).length - 1 ∧
    ((levelArray levels).length ≤ 1 →
      generateIsobands isoBandsO levels tile extent = []) := by
  cases hemp : (levelArray levels).isEmpty with
  | true =>
    have hres : generateIsobands isoBandsO levels tile extent = [] := by
      rw [generateIsobands]
      simp [hemp]
    rw [hres]
    refine ⟨by simp, by simp, fun _ => rfl⟩
  | false =>
    have hres : generateIsobands isoBandsO levels tile extent =
        isobandsCore isoBandsO
          (((levelArray levels).insertionSort (· ≤ ·)).zip
            ((levelArray levels).insertionSort (· ≤ ·)).tail)
          (tileGrid tile) ((extent : ℚ) / ((tile.width : ℚ) - 1)) := by
      rw [generateIsobands]
      simp [hemp]
    have hlen : (((levelArray levels).insertionSort (· ≤ ·)).zip
        ((levelArray levels).insertionSort (· ≤ ·)).tail).length =
        (levelArray levels).length - 1 := by
      rw [List.length_zip, List.length_tail, List.length_insertionSort]
      omega
    refine ⟨?_, ?_, ?_⟩
    · intro e he
      rw [hres, isobandsCore] at he
      rcases isobandsCore_keys isoBandsO _ _ _ _ e he with h1 | h1
      · simp at h1
      · exact h1
    · rw [hres, isobandsCore]
      calc (List.foldl _ [] _).length
          ≤ ([] : List (Str × List (List Int))).length + _ := isobandsCore_length _ _ _ _ _
        _ = _ - 1 := by rw [hlen]; simp
    · intro hle
      have h1 : (levelArray levels).length = 1 := by
        have : ¬(levelArray levels).length = 0 := by
          intro h0
          have h2 := List.isEmpty_iff_length_eq_zero.2 h0
          rw [hemp] at h2
          exact Bool.false_ne_true h2
        omega
      have h2 : (((levelArray levels).insertionSort (· ≤ ·)).zip
          ((levelArray levels).insertionSort (· ≤ ·)).tail) = [] := by
        apply List.eq_nil_of_length_eq_zero
        rw [hlen, h1]
      rw [hres, h2]
      rfl

/-- C6: `generateIsolinesMS` returns the same mapping for every permutation
of the level list, because the list is sorted ascending internally. -/
theorem c6_isolines_order_invariant (isoLinesO : IsoLinesFn)
    (tile : HeightTile) (extent : Int) (l1 l2 : List Int) (h : l1.Perm l2) :
    generateIsolinesMS isoLinesO (.arr l1) tile extent =
      generateIsolinesMS isoLinesO (.arr l2) tile extent := by
  have hsort : l1.insertionSort (· ≤ ·) = l2.insertionSort (· ≤ ·) :=
    List.eq_of_perm_of_sorted
      ((List.perm_insertionSort _ _).trans (h.trans (List.perm_insertionSort _ _).symm))
      (List.sorted_insertionSort _ _) (List.sorted_insertionSort _ _)
  have hemp : l1.isEmpty = l2.isEmpty := by
    have := h.length_eq
    rcases l1 with _ | ⟨a, t⟩ <;> rcases l2 with _ | ⟨b, u⟩ <;> simp_all
  rw [generateIsolinesMS, generateIsolinesMS]
  simp only [levelArray]
  rw [hsort, hemp]

/-- C7: every surviving polyline of `generateIsolinesMS` has at least 2
points (4 flat coordinates), every surviving ring of `generateIsobands` has
at least 3 points (6 flat coordinates), and an entry whose geometry list is
empty is absent from the mapping rather than mapped to `[]`. -/
theorem c7_minimum_geometry :
    (∀ (isoLinesO : IsoLinesFn) (levels : Levels) (tile : HeightTile) (extent : Int)
      (e : Int × List (List Int)), e ∈ generateIsolinesMS isoLinesO levels tile extent →
        e.2 ≠ [] ∧ ∀ g ∈ e.2, 4 ≤ g.length) ∧
    (∀ (isoBandsO : IsoBandsFn) (levels : Levels) (tile : HeightTile) (extent : Int)
      (e : Str × List (List Int)), e ∈ generateIsobands isoBandsO levels tile extent →
        e.2 ≠ [] ∧ ∀ p ∈ e.2, 6 ≤ p.length) := by
  constructor
  · intro isoLinesO levels tile extent e he
    rw [generateIsolinesMS] at he
    cases hemp : (levelArray levels).isEmpty with
    | true => simp [hemp] at he
    | false =>
      simp only [hemp, Bool.false_eq_true, if_false, isolinesCore] at he
      exact isolinesCore_inv _ _ _ _ [] (by simp) e he
  · intro isoBandsO levels tile extent e he
    rw [generateIsobands] at he
    cases hemp : (levelArray levels).isEmpty with
    | true => simp [hemp] at he
    | false =>
      simp only [hemp, Bool.false_eq_true, if_false, isobandsCore] at he
      exact isobandsCore_inv _ _ _ _ [] (by simp) e he

/-- C9: a string `levels` argument is parsed by splitting on commas,
trimming, `Number`-converting and silently dropping entries that fail to
parse; an all-invalid string, like an empty level list, yields the empty
mapping rather than an error. -/
theorem c9_string_level_parsing :
    (∀ (isoLinesO : IsoLinesFn) (tile : HeightTile) (extent : Int) (s : Str),
      generateIsolinesMS isoLinesO (.ofStr s) tile extent =
        generateIsolinesMS isoLinesO (.arr (parseLevelsStr s)) tile extent) ∧
    (∀ (isoBandsO : IsoBandsFn) (tile : HeightTile) (extent : Int) (s : Str),
      generateIsobands isoBandsO (.ofStr s) tile extent =
        generateIsobands isoBandsO (.arr (parseLevelsStr s)) tile extent) ∧
    (∀ (isoLinesO : IsoLinesFn) (tile : HeightTile) (extent : Int) (s : Str),
      parseLevelsStr s = [] →
        generateIsolinesMS isoLinesO (.ofStr s) tile extent = []) ∧
    (∀ (isoBandsO : IsoBandsFn) (tile : HeightTile) (extent : Int) (s : Str),
      parseLevelsStr s = [] →
        generateIsobands isoBandsO (.ofStr s) tile extent = []) ∧
    (∀ (isoLinesO : IsoLinesFn) (tile : HeightTile) (extent : Int),
      generateIsolinesMS isoLinesO (.arr []) tile extent = []) ∧
    (∀ (isoBandsO : IsoBandsFn) (tile : HeightTile) (extent : Int),
      generateIsobands isoBandsO (.arr []) tile extent = []) := by
  refine ⟨fun _ _ _ _ => rfl, fun _ _ _ _ => rfl, ?_, ?_, fun _ _ _ => rfl, fun _ _ _ => rfl⟩
  · intro isoLinesO tile extent s hp
    rw [generateIsolinesMS]
    simp [levelArray, hp]
  · intro isoBandsO tile extent s hp
    rw [generateIsobands]
    simp [levelArray, hp]

/-- C4 witness at a concrete bathymetric input: the sole produced key for
levels `[-100, -75]` is an adjacent sorted pair key. -/
theorem c4_isoband_range_keys_witness :
    ∃ lu ∈ ((levelArray (.arr [-100, -75])).insertionSort (· ≤ ·)).zip
        ((levelArray (.arr [-100, -75])).insertionSort (· ≤ ·)).tail,
      (rangeKeyStr (-100) (-75)) = rangeKeyStr lu.1 lu.2 :=
  (c4_isoband_range_keys demoIsoBands (.arr [-100, -75]) demoTile 4096).1
    (rangeKeyStr (-100) (-75),
      [[0, 0, 0, 4096, 4096, 4096]]) (by decide)

/-- C6 witness: two orderings of the same level list give equal mappings. -/
theorem c6_isolines_order_invariant_witness :
    ([100, -50] : List Int).Perm [-50, 100] ∧
      generateIsolinesMS demoIsoLines (.arr [100, -50]) demoTile 4096 =
        generateIsolinesMS demoIsoLines (.arr [-50, 100]) demoTile 4096 :=
  ⟨by decide, c6_isolines_order_invariant demoIsoLines demoTile 4096 _ _ (by decide)⟩

/-- C7 witness at a concrete input: the surviving geometry entry is nonempty
and each polyline has at least 4 flat coordinates. -/
theorem c7_minimum_geometry_witness :
    [[(0 : Int), 0, 4096, 4096]] ≠ [] ∧
      ∀ g ∈ [[(0 : Int), 0, 4096, 4096]], 4 ≤ g.length :=
  c7_minimum_geometry.1 demoIsoLines (.arr [100]) demoTile 4096
    (100, [[0, 0, 4096, 4096]]) (by decide)

/-- C9 witness: a level string whose entries all fail numeric parsing yields
the empty mapping. -/
theorem c9_string_level_parsing_witness :
    parseLevelsStr ("a,b").data = [] ∧
      generateIsolinesMS demoIsoLines (.ofStr ("a,b").data) demoTile 4096 = [] :=
  ⟨by decide, c9_string_level_parsing.2.2.1 demoIsoLines demoTile 4096 _ (by decide)⟩

/-! ### Spot-sounding jittered grid (src/utils.ts `seededRandom`,
`generateJitteredGrid`) -/

/-- JS `a % b` (remainder with the sign of the dividend), for `b > 0`. -/
def jsRem (a b : Int) : Int := if 0 ≤ a then a % b else -((-a) % b)

/-- One step of the linear congruential generator of `seededRandom`:
`state = (state * 1664525 + 1013904223) % 4294967296`; the produced random
value is `state / 4294967296`. -/
def rngStep (state : Int) : Int := jsRem (state * 1664525 + 1013904223) 4294967296

/-- The nested loop index pairs `(i, j)`, `i` outer from `0` to `nx`,
`j` inner from `0` to `ny` (no iterations when the bound is negative). -/
def gridPairs (nx ny : Int) : List (Nat × Nat) :=
  (List.range (nx + 1).toNat).foldr
    (fun i acc => ((List.range (ny + 1).toNat).map (fun j => (i, j))) ++ acc) []

/-- The loop body of `generateJitteredGrid`, threading the LCG state:
`dx`/`dy` draw successive random values, the point is kept when
`x < maxx && y < maxy`. -/
def jitterLoop (minx miny maxx maxy spacing : ℚ) :
    List (Nat × Nat) → Int → List (ℚ × ℚ)
  | [], _ => []
  | ij :: rest, state =>
    let s1 := rngStep state
    let dx := (s1 : ℚ) / 4294967296 * spacing / 2
    let s2 := rngStep s1
    let dy := (s2 : ℚ) / 4294967296 * spacing / 2
    let x := minx + (ij.1 : ℚ) * spacing + dx + spacing / 4
    let y := miny + (ij.2 : ℚ) * spacing + dy + spacing / 4
    let restPts := jitterLoop minx miny maxx maxy spacing rest s2
    if x < maxx ∧ y < maxy then (x, y) :: restPts else restPts

/-- src/utils.ts `generateJitteredGrid(minx, miny, maxx, maxy, spacing,
tileX, tileY, tileZ)`. -/
def generateJitteredGrid (minx miny maxx maxy spacing : ℚ)
    (tileX tileY tileZ : Int) : List (ℚ × ℚ) :=
  let nx : Int := ⌊(maxx - minx) / spacing⌋
  let ny : Int := ⌊(maxy - miny) / spacing⌋
  -- `const seed = tileZ * 1000000 + tileX * 1000 + tileY`
  let seed := tileZ * 1000000 + tileX * 1000 + tileY
  jitterLoop minx miny maxx maxy spacing (gridPairs nx ny) seed

theorem rngStep_nonneg {state : Int} (h : 0 ≤ state) : 0 ≤ rngStep state := by
  have ha : 0 ≤ state * 1664525 + 1013904223 := by positivity
  rw [rngStep, jsRem, if_pos ha]
  exact Int.emod_nonneg _ (by norm_num)

theorem jitterLoop_bounds {minx miny maxx maxy spacing : ℚ} (hsp : 0 < spacing) :
    ∀ (pairs : List (Nat × Nat)) (state : Int), 0 ≤ state →
      ∀ p ∈ jitterLoop minx miny maxx maxy spacing pairs state,
        minx < p.1 ∧ p.1 < maxx ∧ miny < p.2 ∧ p.2 < maxy := by
  intro pairs
  induction pairs with
  | nil => intro state _ p hp; simp [jitterLoop] at hp
  | cons ij rest ih =>
    intro state hstate p hp
    simp only [jitterLoop] at hp
    have hs1 : 0 ≤ rngStep state := rngStep_nonneg hstate
    have hs2 : 0 ≤ rngStep (rngStep state) := rngStep_nonneg hs1
    have hdx : 0 ≤ (rngStep state : ℚ) / 4294967296 * spacing / 2 := by positivity
    have hdy : 0 ≤ (rngStep (rngStep state) : ℚ) / 4294967296 * spacing / 2 := by positivity
    have hxi : 0 ≤ (ij.1 : ℚ) * spacing := by positivity
    have hyj : 0 ≤ (ij.2 : ℚ) * spacing := by positivity
    have hq : 0 < spacing / 4 := by positivity
    split at hp
    · next hin =>
      rcases List.mem_cons.1 hp with h1 | h1
      · subst h1
        refine ⟨by simp only; linarith, hin.1, by simp only; linarith, hin.2⟩
      · exact ih _ hs2 p h1
    · exact ih _ hs2 p hp

/-- C5: the jittered spot-sounding grid is a deterministic pure function,
and its pseudo-random jitter depends on the tile coordinates only through
the seed `tileZ*1000000 + tileX*1000 + tileY`: two calls whose arguments
yield the same seed (in particular, two calls with identical arguments)
return identical point sequences. -/
theorem c5_jitter_deterministic (minx miny maxx maxy spacing : ℚ)
    (tileX tileY tileZ tileX' tileY' tileZ' : Int)
    (h : tileZ * 1000000 + tileX * 1000 + tileY =
      tileZ' * 1000000 + tileX' * 1000 + tileY') :
    generateJitteredGrid minx miny maxx maxy spacing tileX tileY tileZ =
      generateJitteredGrid minx miny maxx maxy spacing tileX' tileY' tileZ' := by
  simp only [generateJitteredGrid]
  rw [h]

/-- C5 witness: two different tile coordinates with the same derived seed
produce the identical point list. -/
theorem c5_jitter_deterministic_witness :
    ((0 : Int) * 1000000 + 0 * 1000 + 1000 = 0 * 1000000 + 1 * 1000 + 0) ∧
      generateJitteredGrid 0 0 1 1 1 0 1000 0 = generateJitteredGrid 0 0 1 1 1 1 0 0 :=
  ⟨by decide, c5_jitter_deterministic 0 0 1 1 1 0 1000 0 1 0 0 (by decide)⟩

/-- C10: with positive spacing and a non-negative derived seed, every point
returned by `generateJitteredGrid` lies strictly inside the requested
bounds. -/
theorem c10_jitter_points_inside (minx miny maxx maxy spacing : ℚ)
    (tileX tileY tileZ : Int) (hsp : 0 < spacing)
    (hseed : 0 ≤ tileZ * 1000000 + tileX * 1000 + tileY) :
    ∀ p ∈ generateJitteredGrid minx miny maxx maxy spacing tileX tileY tileZ,
      minx < p.1 ∧ p.1 < maxx ∧ miny < p.2 ∧ p.2 < maxy := by
  intro p hp
  rw [generateJitteredGrid] at hp
  exact jitterLoop_bounds hsp _ _ hseed p hp

/-- C10 witness: the first point generated for the unit square with
spacing 1 and seed 0 lies strictly inside the bounds. -/
theorem c10_jitter_points_inside_witness :
    (0 : ℚ) < 1 ∧ (0 : Int) ≤ 0 * 1000000 + 0 * 1000 + 0 ∧
      ((3161387871 / 8589934592 : ℚ), (1671959705 / 4294967296 : ℚ)) ∈
        generateJitteredGrid 0 0 1 1 1 0 0 0 ∧
      ((0 : ℚ) < 3161387871 / 8589934592 ∧ (3161387871 / 8589934592 : ℚ) < 1 ∧
        (0 : ℚ) < 1671959705 / 4294967296 ∧ (1671959705 / 4294967296 : ℚ) < 1) :=
  ⟨by norm_num, by decide, by decide,
    c10_jitter_points_inside 0 0 1 1 1 0 0 0 (by norm_num) (by decide)
      ((3161387871 / 8589934592 : ℚ), (1671959705 / 4294967296 : ℚ)) (by decide)⟩

/-! ### Contour tile options (src/types.ts) and per-zoom resolution
(src/utils.ts `getOptionsForZoom`) -/

/-- A value of a `thresholds` map entry: `number | number[]`. -/
inductive TVal where
  | num (n : Int)
  | arr (l : List Int)
deriving DecidableEq

/-- `typeof value === "number" ? [value] : value`. -/
def tvalList : TVal → List Int
  | .num n => [n]
  | .arr l => l

/-- src/types.ts `ContourTileOptions` (scalar and string option fields;
absent fields are `none`). -/
structure ContourTileOptions where
  multiplier : Option Int := none
  overzoom : Option Int := none
  elevationKey : Option Str := none
  levelKey : Option Str := none
  contourLayer : Option Str := none
  extent : Option Int := none
  buffer : Option Int := none
  subsampleBelow : Option Int := none
  polygonLayer : Option Str := none
  lowerElevationKey : Option Str := none
  upperElevationKey : Option Str := none
  spotGridSpacing : Option Int := none
  spotSortOrder : Option Str := none
  spotLayer : Option Str := none
deriving DecidableEq

/-- src/types.ts `GlobalContourTileOptions`: the three sparse zoom-keyed
maps, modelled as association lists (a JS object has distinct keys; the
relevant theorems carry `Nodup` hypotheses on the key lists). -/
structure GlobalContourTileOptions extends ContourTileOptions where
  thresholds : Option (List (Int × TVal)) := none
  lineLevels : Option (List (Int × List Int)) := none
  polygonLevels : Option (List (Int × List Int)) := none
deriving DecidableEq

/-- src/types.ts `IndividualContourTileOptions`. -/
structure IndividualContourTileOptions extends ContourTileOptions where
  lineLevels : List Int
  polygonLevels : Option (List Int)
deriving DecidableEq

/-- `maxLessThanOrEqualTo` starts at `-Infinity` (modelled `none`); the
loop condition `z > maxLessThanOrEqualTo`. -/
def gtMaxB (m : Option Int) (z : Int) : Bool :=
  match m with
  | none => true
  | some mv => mv < z

/-- One `Object.entries(...).forEach` scan of `getOptionsForZoom`,
threading `maxLessThanOrEqualTo` and the selected value. -/
def resolveGo {α β : Type} (zoom : Int) (upd : α → β) :
    List (Int × α) → Option Int → β → Option Int × β
  | [], m, cur => (m, cur)
  | e :: rest, m, cur =>
    if decide (e.1 ≤ zoom) && gtMaxB m e.1 then
      resolveGo zoom upd rest (some e.1) (upd e.2)
    else resolveGo zoom upd rest m cur

/-- src/utils.ts `getOptionsForZoom(options, zoom)`: thresholds scanned
first into `lineLevelsForZoom` (scalars wrapped as `[value]`), then
`lineLevels` overwrites into the same variable, then `polygonLevels`;
each block has its own fresh `maxLessThanOrEqualTo`. -/
def getOptionsForZoom (o : GlobalContourTileOptions) (zoom : Int) :
    IndividualContourTileOptions :=
  let line1 : List Int :=
    match o.thresholds with
    | none => []
    | some t => (resolveGo zoom tvalList t none []).2
  let line2 : List Int :=
    match o.lineLevels with
    | none => line1
    | some l => (resolveGo zoom id l none line1).2
  let poly : Option (List Int) :=
    match o.polygonLevels with
    | none => none
    | some p => (resolveGo zoom some p none none).2
  { toContourTileOptions := o.toContourTileOptions
    lineLevels := line2
    polygonLevels := poly }

/-- `z > maxLessThanOrEqualTo` as a proposition. -/
def GtMax (m : Option Int) (z : Int) : Prop := ∀ mv, m = some mv → mv < z

theorem gtMaxB_iff (m : Option Int) (z : Int) : gtMaxB m z = true ↔ GtMax m z := by
  cases m with
  | none => simp [gtMaxB, GtMax]
  | some mv => simp [gtMaxB, GtMax]

/-- The staircase-selection specification: `v` is the value configured at
the largest zoom key that is at most the requested zoom. -/
def IsValueAtMaxKeyLE {α : Type} (zoom : Int) (entries : List (Int × α)) (v : α) : Prop :=
  ∃ k, (k, v) ∈ entries ∧ k ≤ zoom ∧ ∀ e ∈ entries, e.1 ≤ zoom → e.1 ≤ k

/-- No configured zoom key is at most the requested zoom. -/
def NoKeyLE {α : Type} (zoom : Int) (entries : List (Int × α)) : Prop :=
  ∀ e ∈ entries, zoom < e.1

instance {α : Type} (zoom : Int) (entries : List (Int × α)) :
    Decidable (NoKeyLE zoom entries) := by
  unfold NoKeyLE
  infer_instance

theorem resolveGo_none_of {α β : Type} (zoom : Int) (upd : α → β) :
    ∀ (entries : List (Int × α)) (m : Option Int) (cur : β),
      (∀ e ∈ entries, ¬(e.1 ≤ zoom ∧ GtMax m e.1)) →
      resolveGo zoom upd entries m cur = (m, cur) := by
  intro entries
  induction entries with
  | nil => intro m cur _; rfl
  | cons e rest ih =>
    intro m cur h
    have he := h e (List.mem_cons_self _ _)
    have hcond : ¬(decide (e.1 ≤ zoom) && gtMaxB m e.1) = true := by
      intro hc
      have hc' : e.1 ≤ zoom ∧ gtMaxB m e.1 = true := by simpa using hc
      exact he ⟨hc'.1, (gtMaxB_iff _ _).1 hc'.2⟩
    rw [resolveGo, if_neg hcond]
    exact ih m cur (fun f hf => h f (List.mem_cons_of_mem _ hf))

theorem resolveGo_hit {α β : Type} (zoom : Int) (upd : α → β) :
    ∀ (entries : List (Int × α)) (m : Option Int) (cur : β) (k : Int) (v : α),
      (entries.map Prod.fst).Nodup → (k, v) ∈ entries → k ≤ zoom → GtMax m k →
      (∀ e ∈ entries, e.1 ≤ zoom → e.1 ≤ k) →
      resolveGo zoom upd entries m cur = (some k, upd v) := by
  intro entries
  induction entries with
  | nil => intro m cur k v _ hmem; simp at hmem
  | cons e rest ih =>
    intro m cur k v hnd hmem hk hgt hmax
    rw [List.map_cons] at hnd
    have hhead : e.1 ∉ rest.map Prod.fst := (List.nodup_cons.1 hnd).1
    have hndtail : (rest.map Prod.fst).Nodup := (List.nodup_cons.1 hnd).2
    rcases List.mem_cons.1 hmem with heq | htail
    · -- the head is the maximal entry: it is selected, nothing later overrides
      have hek : e.1 = k := by rw [← heq]
      have hcond : (decide (e.1 ≤ zoom) && gtMaxB m e.1) = true := by
        simp only [Bool.and_eq_true, decide_eq_true_eq]
        exact ⟨hek ▸ hk, (gtMaxB_iff _ _).2 (hek ▸ hgt)⟩
      rw [resolveGo, if_pos hcond]
      have hstop : resolveGo zoom upd rest (some e.1) (upd e.2) = (some e.1, upd e.2) := by
        apply resolveGo_none_of
        intro f hf hc
        have hfk : f.1 ≤ k := hmax f (List.mem_cons_of_mem _ hf) hc.1
        have : e.1 < f.1 := hc.2 e.1 rfl
        omega
      rw [hstop, ← heq]
    · -- the maximal entry is further on
      by_cases hcond : (decide (e.1 ≤ zoom) && gtMaxB m e.1) = true
      · have hcc : e.1 ≤ zoom ∧ gtMaxB m e.1 = true := by simpa using hcond
        have hek : e.1 ≤ k := hmax e (List.mem_cons_self _ _) hcc.1
        have hne : e.1 ≠ k := by
          intro hek'
          apply hhead
          exact hek' ▸ List.mem_map.2 ⟨(k, v), htail, rfl⟩
        rw [resolveGo, if_pos hcond]
        exact ih _ _ k v hndtail htail hk
          (fun mv hmv => by injection hmv with hmv; omega)
          (fun f hf => hmax f (List.mem_cons_of_mem _ hf))
      · rw [resolveGo, if_neg hcond]
        exact ih _ _ k v hndtail htail hk hgt
          (fun f hf => hmax f (List.mem_cons_of_mem _ hf))

theorem resolveGo_axis_none {α β : Type} (zoom : Int) (upd : α → β)
    (entries : List (Int × α)) (start : β) (h : NoKeyLE zoom entries) :
    (resolveGo zoom upd entries none start).2 = start := by
  rw [resolveGo_none_of zoom upd entries none start
    (fun e he hc => by have := h e he; omega : ∀ e ∈ entries, ¬(e.1 ≤ zoom ∧ GtMax none e.1))]

theorem resolveGo_axis_hit {α β : Type} (zoom : Int) (upd : α → β)
    (entries : List (Int × α)) (start : β) {v : α}
    (hnd : (entries.map Prod.fst).Nodup) (h : IsValueAtMaxKeyLE zoom entries v) :
    (resolveGo zoom upd entries none start).2 = upd v := by
  rcases h with ⟨k, hmem, hk, hmax⟩
  rw [resolveGo_hit zoom upd entries none start k v hnd hmem hk
    (fun mv hmv => by cases hmv) hmax]

theorem getOptionsForZoom_polygonLevels (o : GlobalContourTileOptions) (zoom : Int) :
    (getOptionsForZoom o zoom).polygonLevels =
      match o.polygonLevels with
      | none => none
      | some p => (resolveGo zoom some p none none).2 := rfl

theorem getOptionsForZoom_lineLevels (o : GlobalContourTileOptions) (zoom : Int) :
    (getOptionsForZoom o zoom).lineLevels =
      match o.lineLevels with
      | none =>
        match o.thresholds with
        | none => []
        | some t => (resolveGo zoom tvalList t none []).2
      | some l =>
        (resolveGo zoom id l none
          (match o.thresholds with
           | none => []
           | some t => (resolveGo zoom tvalList t none []).2)).2 := by
  cases hl : o.lineLevels <;> cases ht : o.thresholds <;>
    simp only [getOptionsForZoom, hl, ht]

/-- C3: `getOptionsForZoom` resolves each of the three axes by the
largest-configured-key-at-most-zoom rule (thresholds feeding the resolved
`lineLevels` unless the `lineLevels` axis itself resolves), and when no
configured key is `≤ zoom` the resolved `lineLevels` is `[]` and the
resolved `polygonLevels` is `undefined` — never a value from a higher
zoom key; the remaining option fields pass through unchanged. -/
theorem c3_staircase_resolution (o : GlobalContourTileOptions) (zoom : Int) :
    (o.polygonLevels = none → (getOptionsForZoom o zoom).polygonLevels = none) ∧
    (∀ p, o.polygonLevels = some p → NoKeyLE zoom p →
      (getOptionsForZoom o zoom).polygonLevels = none) ∧
    (∀ p v, o.polygonLevels = some p → (p.map Prod.fst).Nodup →
      IsValueAtMaxKeyLE zoom p v →
      (getOptionsForZoom o zoom).polygonLevels = some v) ∧
    (∀ l v, o.lineLevels = some l → (l.map Prod.fst).Nodup →
      IsValueAtMaxKeyLE zoom l v → (getOptionsForZoom o zoom).lineLevels = v) ∧
    (∀ t tv, o.thresholds = some t → (t.map Prod.fst).Nodup →
      IsValueAtMaxKeyLE zoom t tv →
      (o.lineLevels = none ∨ ∃ l, o.lineLevels = some l ∧ NoKeyLE zoom l) →
      (getOptionsForZoom o zoom).lineLevels = tvalList tv) ∧
    ((o.thresholds = none ∨ ∃ t, o.thresholds = some t ∧ NoKeyLE zoom t) →
      (o.lineLevels = none ∨ ∃ l, o.lineLevels = some l ∧ NoKeyLE zoom l) →
      (getOptionsForZoom o zoom).lineLevels = []) ∧
    (getOptionsForZoom o zoom).toContourTileOptions = o.toContourTileOptions := by
  refine ⟨?_, ?_, ?_, ?_, ?_, ?_, rfl⟩
  · intro h
    rw [getOptionsForZoom_polygonLevels, h]
  · intro p hp hno
    rw [getOptionsForZoom_polygonLevels, hp]
    exact resolveGo_axis_none zoom some p none hno
  · intro p v hp hnd hval
    rw [getOptionsForZoom_polygonLevels, hp]
    exact resolveGo_axis_hit zoom some p none hnd hval
  · intro l v hl hnd hval
    rw [getOptionsForZoom_lineLevels, hl]
    dsimp only
    exact resolveGo_axis_hit zoom id l _ hnd hval
  · intro t tv ht hnd hval hline
    rw [getOptionsForZoom_lineLevels, ht]
    rcases hline with hnone | ⟨l, hl, hno⟩
    · rw [hnone]
      dsimp only
      exact resolveGo_axis_hit zoom tvalList t [] hnd hval
    · rw [hl]
      dsimp only
      rw [resolveGo_axis_none zoom id l _ hno]
      exact resolveGo_axis_hit zoom tvalList t [] hnd hval
  · intro hthr hline
    rw [getOptionsForZoom_lineLevels]
    rcases hline with hnone | ⟨l, hl, hno⟩
    · rw [hnone]
      dsimp only
      rcases hthr with ht | ⟨t, ht, hnot⟩
      · rw [ht]
      · rw [ht]
        dsimp only
        exact resolveGo_axis_none zoom tvalList t [] hnot
    · rw [hl]
      dsimp only
      rw [resolveGo_axis_none zoom id l _ hno]
      rcases hthr with ht | ⟨t, ht, hnot⟩
      · rw [ht]
      · rw [ht]
        dsimp only
        exact resolveGo_axis_none zoom tvalList t [] hnot

/-- Example staircase configuration from the spec:
thresholds `{8: [50], 11: [50, 100]}`. -/
def stairOpts : GlobalContourTileOptions :=
  { thresholds := some [(8, TVal.arr [50]), (11, TVal.arr [50, 100])] }

/-- C3 witness: resolving the spec's staircase example at zoom 9 selects
the zoom-8 value `[50]`, and at zoom 5 yields the empty list. -/
theorem c3_staircase_resolution_witness :
    (([(8, TVal.arr [50]), (11, TVal.arr [50, 100])].map Prod.fst).Nodup ∧
      IsValueAtMaxKeyLE 9 [(8, TVal.arr [50]), (11, TVal.arr [50, 100])] (TVal.arr [50])) ∧
    (getOptionsForZoom stairOpts 9).lineLevels = [50] ∧
    (getOptionsForZoom stairOpts 5).lineLevels = [] :=
  ⟨⟨by decide, ⟨8, by decide, by decide, by decide⟩⟩,
    (c3_staircase_resolution stairOpts 9).2.2.2.2.1 _ (TVal.arr [50]) rfl (by decide)
      ⟨8, by decide, by decide, by decide⟩ (Or.inl rfl),
    (c3_staircase_resolution stairOpts 5).2.2.2.2.2.1
      (Or.inr ⟨_, rfl, by decide⟩) (Or.inl rfl)⟩

/-- Configuration with both a thresholds entry and a lineLevels entry that
resolve to non-empty values at zoom 0. -/
def bothModesOpts : GlobalContourTileOptions :=
  { thresholds := some [(0, TVal.arr [50])], lineLevels := some [(0, [100])] }

/-- C2 counterexample: with both mutually-exclusive modes configured and
resolving non-empty at zoom 0, `getOptionsForZoom` does not report any
configuration error — it returns an ordinary result in which the fixed
`lineLevels` value has silently replaced the thresholds value. -/
theorem c2_counterexample_no_error :
    getOptionsForZoom bothModesOpts 0 =
      { lineLevels := [100], polygonLevels := none } := by decide

/-- C2 amended: when both the thresholds axis and the lineLevels axis
resolve to non-empty values for the requested zoom, `getOptionsForZoom`
silently prefers the fixed `lineLevels` value (its loop overwrites
`lineLevelsForZoom` after the thresholds loop); no error is reported. -/
theorem c2_amended_lineLevels_precedence (o : GlobalContourTileOptions) (zoom : Int)
    (t : List (Int × TVal)) (tv : TVal) (l : List (Int × List Int)) (v : List Int)
    (ht : o.thresholds = some t) (hndt : (t.map Prod.fst).Nodup)
    (htv : IsValueAtMaxKeyLE zoom t tv) (htne : tvalList tv ≠ [])
    (hl : o.lineLevels = some l) (hndl : (l.map Prod.fst).Nodup)
    (hlv : IsValueAtMaxKeyLE zoom l v) (hlne : v ≠ []) :
    (getOptionsForZoom o zoom).lineLevels = v := by
  rw [getOptionsForZoom_lineLevels, hl]
  exact resolveGo_axis_hit zoom id l _ hndl hlv

/-- C2 witness: at the concrete both-modes configuration the resolved
lineLevels are the fixed levels `[100]`, not the thresholds `[50]`. -/
theorem c2_amended_lineLevels_precedence_witness :
    IsValueAtMaxKeyLE 0 [((0 : Int), TVal.arr [50])] (TVal.arr [50]) ∧
      IsValueAtMaxKeyLE 0 [((0 : Int), [(100 : Int)])] [100] ∧
      (getOptionsForZoom bothModesOpts 0).lineLevels = [100] :=
  ⟨⟨0, by decide, by decide, by decide⟩, ⟨0, by decide, by decide, by decide⟩,
    c2_amended_lineLevels_precedence bothModesOpts 0 _ (TVal.arr [50]) _ [100]
      rfl (by decide) ⟨0, by decide, by decide, by decide⟩ (by decide)
      rfl (by decide) ⟨0, by decide, by decide, by decide⟩ (by decide)⟩

/-! ### Options encoding and decoding (src/utils.ts `encodeOptions`,
`decodeOptions`) -/

/-- JS `a < b` on strings (UTF-16 lexicographic; ASCII fragment). -/
def strLt : Str → Str → Bool
  | [], [] => false
  | [], _ :: _ => true
  | _ :: _, [] => false
  | a :: as, b :: bs =>
    if a.toNat < b.toNat then true
    else if b.toNat < a.toNat then false
    else strLt as bs

def strLe (a b : Str) : Bool := !(strLt b a)

/-- `sortedEntries` for the zoom-keyed maps: `Object.entries` yields string
keys, sorted with the `a < b ? -1 : a > b ? 1 : 0` comparator. -/
def sortedMapEntries {α : Type} (l : List (Int × α)) : List (Int × α) :=
  l.insertionSort (fun a b => strLe (intToStr a.1) (intToStr b.1) = true)

/-- src/utils.ts `encodeThresholds`:
`[key, ...(typeof value === "number" ? [value] : value)].join("*")`,
entries joined with `~`. -/
def encodeThresholds (t : List (Int × TVal)) : Str :=
  jsJoin '~' ((sortedMapEntries t).map
    (fun e => jsJoin '*' (intToStr e.1 :: (tvalList e.2).map intToStr)))

/-- src/utils.ts `encodeLevels`. -/
def encodeLevels (l : List (Int × List Int)) : Str :=
  jsJoin '~' ((sortedMapEntries l).map
    (fun e => jsJoin '*' (intToStr e.1 :: e.2.map intToStr)))

/-- A decoded map value: always an array in decoded output, but the
original object may hold scalar numbers (deep equality distinguishes
them). -/
inductive MVal where
  | num (n : Option Int)
  | arr (l : List (Option Int))
deriving DecidableEq

/-- A decoded JS value in the options object. -/
inductive DVal where
  | num (n : Option Int)
  | dstr (s : Str)
  | dmap (entries : List (Option Int × MVal))
  | undef
deriving DecidableEq

/-- src/utils.ts `decodeThresholds`: split on `~`, split each part on `*`,
`Number` every piece, `[key, ...values] => [key, values]`
(`Object.fromEntries` is modelled as the entry list; deep equality below
compares entry lists as maps). -/
def decodeThresholds (s : Str) : List (Option Int × MVal) :=
  (jsSplit '~' s).map (fun part =>
    let nums := (jsSplit '*' part).map jsNumber
    (nums.headD none, MVal.arr (nums.drop 1)))

/-- src/utils.ts `decodeLevels` (same body as `decodeThresholds`). -/
def decodeLevels (s : Str) : List (Option Int × MVal) :=
  (jsSplit '~' s).map (fun part =>
    let nums := (jsSplit '*' part).map jsNumber
    (nums.headD none, MVal.arr (nums.drop 1)))

/-- A value of the intermediate `encoded` object in `encodeOptions`
(numbers from `...rest`, strings from the three encoded maps and the
string-valued fields). -/
inductive EncVal where
  | num (n : Int)
  | estr (s : Str)
deriving DecidableEq

/-- Template-literal stringification `${value}` inside
`encodeURIComponent(value)`. -/
def encValStr : EncVal → Str
  | .num n => intToStr n
  | .estr s => s

def kMultiplier : Str := "multiplier".data
def kOverzoom : Str := "overzoom".data
def kElevationKey : Str := "elevationKey".data
def kLevelKey : Str := "levelKey".data
def kContourLayer : Str := "contourLayer".data
def kExtent : Str := "extent".data
def kBuffer : Str := "buffer".data
def kSubsampleBelow : Str := "subsampleBelow".data
def kPolygonLayer : Str := "polygonLayer".data
def kLowerElevationKey : Str := "lowerElevationKey".data
def kUpperElevationKey : Str := "upperElevationKey".data
def kSpotGridSpacing : Str := "spotGridSpacing".data
def kSpotSortOrder : Str := "spotSortOrder".data
def kSpotLayer : Str := "spotLayer".data
def kThresholds : Str := "thresholds".data
def kLineLevels : Str := "lineLevels".data
def kPolygonLevels : Str := "polygonLevels".data

def optPieceN (k : Str) (v : Option Int) : List (Str × EncVal) :=
  match v with
  | none => []
  | some n => [(k, EncVal.num n)]

def optPieceS (k : Str) (v : Option Str) : List (Str × EncVal) :=
  match v with
  | none => []
  | some s => [(k, EncVal.estr s)]

/-- The entries of the intermediate `encoded` object: the `...rest` scalar
and string fields (a JS object's own enumeration order is immaterial — the
code sorts the entries), then the three maps, encoded to strings when
present. -/
def encEntries (o : GlobalContourTileOptions) : List (Str × EncVal) :=
  optPieceN kMultiplier o.multiplier ++
  optPieceN kOverzoom o.overzoom ++
  optPieceS kElevationKey o.elevationKey ++
  optPieceS kLevelKey o.levelKey ++
  optPieceS kContourLayer o.contourLayer ++
  optPieceN kExtent o.extent ++
  optPieceN kBuffer o.buffer ++
  optPieceN kSubsampleBelow o.subsampleBelow ++
  optPieceS kPolygonLayer o.polygonLayer ++
  optPieceS kLowerElevationKey o.lowerElevationKey ++
  optPieceS kUpperElevationKey o.upperElevationKey ++
  optPieceN kSpotGridSpacing o.spotGridSpacing ++
  optPieceS kSpotSortOrder o.spotSortOrder ++
  optPieceS kSpotLayer o.spotLayer ++
  (match o.thresholds with
   | none => []
   | some t => [(kThresholds, EncVal.estr (encodeThresholds t))]) ++
  (match o.lineLevels with
   | none => []
   | some l => [(kLineLevels, EncVal.estr (encodeLevels l))]) ++
  (match o.polygonLevels with
   | none => []
   | some p => [(kPolygonLevels, EncVal.estr (encodeLevels p))])

/-- `sortedEntries` on the top-level `encoded` object. -/
def sortedEntriesTop (l : List (Str × EncVal)) : List (Str × EncVal) :=
  l.insertionSort (fun a b => strLe a.1 b.1 = true)

/-- src/utils.ts `encodeOptions`: sorted entries rendered as
`encodeURIComponent(key)=encodeURIComponent(value)` joined by `&`. -/
def encodeOptions (o : GlobalContourTileOptions) : Str :=
  jsJoin '&' ((sortedEntriesTop (encEntries o)).map
    (fun e => uriEncode e.1 ++ '=' :: uriEncode (encValStr e.2)))

/-- `options.replace(/^.*\?/, "")`: greedily strips everything up to the
last `?` (identity when there is no `?`). -/
def dropThroughLastQM (s : Str) : Str :=
  (s.reverse.takeWhile (fun c => ¬c = '?')).reverse

/-- `.map(f)` over a list whose mapped function may throw: `none`
propagates (the exception aborts the whole call). -/
def mapMOpt {α β : Type} (f : α → Option β) : List α → Option (List β)
  | [] => some []
  | x :: rest =>
    match f x with
    | none => none
    | some y => (mapMOpt f rest).map (fun t => y :: t)

/-- One entry of `decodeOptions`' map: split the part on `=`, decode both
sides, then switch on the key. `none` models a thrown exception
(`decodeURIComponent` failure, or splitting `undefined`). -/
def decodePart (part : Str) : Option (Str × DVal) := do
  let parts ← mapMOpt uriDecode (jsSplit '=' part)
  let k := parts.headD []
  let v? := (parts.drop 1).head?
  if k = kThresholds then do
    let v ← v?
    pure (k, DVal.dmap (decodeThresholds v))
  else if k = kLineLevels ∨ k = kPolygonLevels then do
    let v ← v?
    pure (k, DVal.dmap (decodeLevels v))
  else if k = kExtent ∨ k = kMultiplier ∨ k = kOverzoom ∨ k = kBuffer then
    -- `Number(undefined)` is `NaN`
    pure (k, DVal.num (match v? with | some v => jsNumber v | none => none))
  else
    pure (k, match v? with | some v => DVal.dstr v | none => DVal.undef)

/-- src/utils.ts `decodeOptions`. -/
def decodeOptions (s : Str) : Option (List (Str × DVal)) :=
  mapMOpt decodePart (jsSplit '&' (dropThroughLastQM s))

/-! #### The original options value viewed as a JS object, and JS deep
equality on decoded objects -/

def reprTVal : TVal → MVal
  | .num n => MVal.num (some n)
  | .arr l => MVal.arr (l.map some)

def reprMapT (t : List (Int × TVal)) : List (Option Int × MVal) :=
  t.map (fun e => (some e.1, reprTVal e.2))

def reprMapL (l : List (Int × List Int)) : List (Option Int × MVal) :=
  l.map (fun e => (some e.1, MVal.arr (e.2.map some)))

def rPieceN (k : Str) (v : Option Int) : List (Str × DVal) :=
  match v with
  | none => []
  | some n => [(k, DVal.num (some n))]

def rPieceS (k : Str) (v : Option Str) : List (Str × DVal) :=
  match v with
  | none => []
  | some s => [(k, DVal.dstr s)]

/-- The original `GlobalContourTileOptions` value as a JS object in the
decoded-value representation (enumerated in the same field order as
`encEntries`). -/
def reprOpts (o : GlobalContourTileOptions) : List (Str × DVal) :=
  rPieceN kMultiplier o.multiplier ++
  rPieceN kOverzoom o.overzoom ++
  rPieceS kElevationKey o.elevationKey ++
  rPieceS kLevelKey o.levelKey ++
  rPieceS kContourLayer o.contourLayer ++
  rPieceN kExtent o.extent ++
  rPieceN kBuffer o.buffer ++
  rPieceN kSubsampleBelow o.subsampleBelow ++
  rPieceS kPolygonLayer o.polygonLayer ++
  rPieceS kLowerElevationKey o.lowerElevationKey ++
  rPieceS kUpperElevationKey o.upperElevationKey ++
  rPieceN kSpotGridSpacing o.spotGridSpacing ++
  rPieceS kSpotSortOrder o.spotSortOrder ++
  rPieceS kSpotLayer o.spotLayer ++
  (match o.thresholds with
   | none => []
   | some t => [(kThresholds, DVal.dmap (reprMapT t))]) ++
  (match o.lineLevels with
   | none => []
   | some l => [(kLineLevels, DVal.dmap (reprMapL l))]) ++
  (match o.polygonLevels with
   | none => []
   | some p => [(kPolygonLevels, DVal.dmap (reprMapL p))])

/-- First-occurrence key lookup in an association list. -/
def findVal {κ ν : Type} [DecidableEq κ] (k : κ) : List (κ × ν) → Option ν
  | [] => none
  | e :: rest => if e.1 = k then some e.2 else findVal k rest

/-- JS deep equality of two numeric-keyed map objects, insensitive to
entry order. -/
def mapEqB (a b : List (Option Int × MVal)) : Bool :=
  a.all (fun e => decide (findVal e.1 b = some e.2)) &&
  b.all (fun e => decide (findVal e.1 a = some e.2))

/-- JS deep equality of decoded values. -/
def dvalEqB : DVal → DVal → Bool
  | .num a, .num b => decide (a = b)
  | .dstr a, .dstr b => decide (a = b)
  | .dmap a, .dmap b => mapEqB a b
  | .undef, .undef => true
  | _, _ => false

/-- JS deep equality of two options objects, insensitive to entry order. -/
def objEqB (a b : List (Str × DVal)) : Bool :=
  a.all (fun e => match findVal e.1 b with | some w => dvalEqB e.2 w | none => false) &&
  b.all (fun e => match findVal e.1 a with | some w => dvalEqB w e.2 | none => false)

/-- Options holding only `subsampleBelow: 100`. -/
def cexSubsample : GlobalContourTileOptions := { subsampleBelow := some 100 }

/-- Options holding only a scalar-valued thresholds entry `{10: 500}`. -/
def cexScalarThresholds : GlobalContourTileOptions :=
  { thresholds := some [(10, TVal.num 500)] }

/-- C1 counterexample: `decodeOptions(encodeOptions(x)) == x` fails on
well-formed inputs the claim covers. `{subsampleBelow: 100}` decodes with
the string `"100"` (the decode switch `Number`-converts only `extent`,
`multiplier`, `overzoom` and `buffer`), and a scalar thresholds value
decodes as a singleton array. -/
theorem c1_roundtrip_counterexample :
    (decodeOptions (encodeOptions cexSubsample) =
      some [(kSubsampleBelow, DVal.dstr ("100").data)]) ∧
    ((decodeOptions (encodeOptions cexSubsample)).map
      (fun d => objEqB d (reprOpts cexSubsample)) = some false) ∧
    ((decodeOptions (encodeOptions cexScalarThresholds)).map
      (fun d => objEqB d (reprOpts cexScalarThresholds)) = some false) := by
  refine ⟨by decide, by decide, by decide⟩

/-! #### Round trip of the map encodings -/

theorem intToStr_ascii (i : Int) : StrASCII (intToStr i) := by
  intro c hc
  rcases intToStr_chars i c hc with h | h <;> omega

theorem intToStr_no_star (i : Int) : '*' ∉ intToStr i := by
  intro h
  rcases intToStr_chars i _ h with h1 | h1 <;> revert h1 <;> decide

theorem mem_starJoin {strs : List Str}
    (h : ∀ p ∈ strs, ∀ c ∈ p, (48 ≤ c.toNat ∧ c.toNat ≤ 57) ∨ c.toNat = 45)
    {c : Char} (hc : c ∈ jsJoin '*' strs) :
    (48 ≤ c.toNat ∧ c.toNat ≤ 57) ∨ c.toNat = 45 ∨ c.toNat = 42 := by
  rcases mem_jsJoin hc with h1 | ⟨p, hp, hcp⟩
  · subst h1; right; right; rfl
  · rcases h p hp c hcp with h2 | h2
    · exact Or.inl h2
    · exact Or.inr (Or.inl h2)

/-- Characters of one `[key, ...values].join("*")` part. -/
theorem mapPart_chars {k : Int} {vals : List Int} {c : Char}
    (hc : c ∈ jsJoin '*' (intToStr k :: vals.map intToStr)) :
    (48 ≤ c.toNat ∧ c.toNat ≤ 57) ∨ c.toNat = 45 ∨ c.toNat = 42 := by
  apply mem_starJoin ?_ hc
  intro p hp
  rcases List.mem_cons.1 hp with h1 | h1
  · subst h1; exact intToStr_chars k
  · rcases List.mem_map.1 h1 with ⟨v, _, hv⟩
    subst hv; exact intToStr_chars v

theorem jsSplit_star_join (k : Int) (vals : List Int) :
    jsSplit '*' (jsJoin '*' (intToStr k :: vals.map intToStr)) =
      intToStr k :: vals.map intToStr := by
  apply jsSplit_jsJoin (by simp)
  intro p hp
  rcases List.mem_cons.1 hp with h1 | h1
  · subst h1; exact intToStr_no_star k
  · rcases List.mem_map.1 h1 with ⟨v, _, hv⟩
    subst hv; exact intToStr_no_star v

/-- Decoding one encoded map part recovers the (sorted) entry. -/
theorem decode_mapPart (k : Int) (vals : List Int) :
    (let nums := (jsSplit '*' (jsJoin '*' (intToStr k :: vals.map intToStr))).map jsNumber
     ((nums.headD none, MVal.arr (nums.drop 1)) : Option Int × MVal)) =
      (some k, MVal.arr (vals.map some)) := by
  rw [jsSplit_star_join]
  simp only [List.map_cons, jsNumber_intToStr, List.headD_cons, List.drop_succ_cons,
    List.drop_zero, List.map_map]
  congr 1
  congr 1
  apply List.map_congr_left
  intro v _
  exact jsNumber_intToStr v

/-- The sorted-entry image of one thresholds entry whose value is an
array. -/
theorem encodeThresholds_part_no_tilde {e : Int × TVal} {c : Char}
    (hc : c ∈ jsJoin '*' (intToStr e.1 :: (tvalList e.2).map intToStr)) : ¬c = '~' := by
  intro hceq
  subst hceq
  rcases mapPart_chars hc with h | h | h <;> revert h <;> decide

theorem decodeThresholds_encodeThresholds {t : List (Int × TVal)} (hne : t ≠ []) :
    decodeThresholds (encodeThresholds t) =
      (sortedMapEntries t).map
        (fun e => (some e.1, MVal.arr ((tvalList e.2).map some))) := by
  rw [decodeThresholds, encodeThresholds]
  have hsne : (sortedMapEntries t).map
      (fun e => jsJoin '*' (intToStr e.1 :: (tvalList e.2).map intToStr)) ≠ [] := by
    simp only [ne_eq, List.map_eq_nil_iff]
    intro hnil
    apply hne
    have hlen := List.length_insertionSort
      (fun a b => strLe (intToStr a.1) (intToStr b.1) = true) t
    rw [sortedMapEntries] at hnil
    rw [hnil] at hlen
    exact List.length_eq_zero.1 hlen.symm
  rw [jsSplit_jsJoin hsne]
  · rw [List.map_map]
    apply List.map_congr_left
    intro e _
    have := decode_mapPart e.1 (tvalList e.2)
    simpa using this
  · intro p hp
    rcases List.mem_map.1 hp with ⟨e, _, hpe⟩
    subst hpe
    intro hmem
    exact encodeThresholds_part_no_tilde hmem rfl

theorem decodeLevels_encodeLevels {l : List (Int × List Int)} (hne : l ≠ []) :
    decodeLevels (encodeLevels l) =
      (sortedMapEntries l).map (fun e => (some e.1, MVal.arr (e.2.map some))) := by
  rw [decodeLevels, encodeLevels]
  have hsne : (sortedMapEntries l).map
      (fun e => jsJoin '*' (intToStr e.1 :: e.2.map intToStr)) ≠ [] := by
    simp only [ne_eq, List.map_eq_nil_iff]
    intro hnil
    apply hne
    have hlen := List.length_insertionSort
      (fun a b => strLe (intToStr a.1) (intToStr b.1) = true) l
    rw [sortedMapEntries] at hnil
    rw [hnil] at hlen
    exact List.length_eq_zero.1 hlen.symm
  rw [jsSplit_jsJoin hsne]
  · rw [List.map_map]
    apply List.map_congr_left
    intro e _
    have := decode_mapPart e.1 e.2
    simpa using this
  · intro p hp
    rcases List.mem_map.1 hp with ⟨e, _, hpe⟩
    subst hpe
    intro hmem
    have hc := mem_starJoin ?_ hmem
    · rcases hc with h | h | h <;> revert h <;> decide
    · intro q hq
      rcases List.mem_cons.1 hq with h1 | h1
      · subst h1; exact intToStr_chars e.1
      · rcases List.mem_map.1 h1 with ⟨v, _, hv⟩
        subst hv; exact intToStr_chars v

/-! #### Decoding one encoded `key=value` part -/

/-- The decode switch of `decodeOptions`, applied to a present value. -/
def dvalSwitch (k s : Str) : DVal :=
  if k = kThresholds then DVal.dmap (decodeThresholds s)
  else if k = kLineLevels ∨ k = kPolygonLevels then DVal.dmap (decodeLevels s)
  else if k = kExtent ∨ k = kMultiplier ∨ k = kOverzoom ∨ k = kBuffer then
    DVal.num (jsNumber s)
  else DVal.dstr s

/-- One rendered `key=value` part of the encoded string. -/
def partStr (e : Str × EncVal) : Str :=
  uriEncode e.1 ++ '=' :: uriEncode (encValStr e.2)

/-- The decoded image of one entry. -/
def decEntry (e : Str × EncVal) : Str × DVal := (e.1, dvalSwitch e.1 (encValStr e.2))

theorem eq_no_mem_uriEncode {s : Str} (hs : StrASCII s) : '=' ∉ uriEncode s := by
  intro h
  exact (uriEncode_chars hs h).2.1 rfl

theorem amp_no_mem_uriEncode {s : Str} (hs : StrASCII s) : '&' ∉ uriEncode s := by
  intro h
  exact (uriEncode_chars hs h).1 rfl

theorem qm_no_mem_uriEncode {s : Str} (hs : StrASCII s) : '?' ∉ uriEncode s := by
  intro h
  exact (uriEncode_chars hs h).2.2 rfl

theorem decodePart_partStr {e : Str × EncVal}
    (hk : StrASCII e.1) (hv : StrASCII (encValStr e.2)) :
    decodePart (partStr e) = some (decEntry e) := by
  have hsplit : jsSplit '=' (partStr e) = [uriEncode e.1, uriEncode (encValStr e.2)] := by
    rw [partStr, jsSplit_append_sep (eq_no_mem_uriEncode hk),
      jsSplit_of_not_mem (eq_no_mem_uriEncode hv)]
  rw [decodePart, hsplit]
  rw [show (mapMOpt uriDecode [uriEncode e.1, uriEncode (encValStr e.2)]) =
      some [e.1, encValStr e.2] from by
    simp [mapMOpt, uriDecode_uriEncode hk, uriDecode_uriEncode hv]]
  simp only [Option.bind_some, Option.some_bind, List.headD_cons, List.drop_succ_cons,
    List.drop_zero, List.head?_cons]
  rw [decEntry, dvalSwitch]
  by_cases h1 : e.1 = kThresholds
  · simp [h1]
  · by_cases h2 : e.1 = kLineLevels ∨ e.1 = kPolygonLevels
    · simp [h1, h2]
    · by_cases h3 : e.1 = kExtent ∨ e.1 = kMultiplier ∨ e.1 = kOverzoom ∨ e.1 = kBuffer
      · simp [h1, h2, h3]
      · simp [h1, h2, h3]

theorem mapMOpt_of_forall {α β γ : Type} (f : α → β) (dec : β → Option γ) (g : α → γ) :
    ∀ l : List α, (∀ x ∈ l, dec (f x) = some (g x)) →
      mapMOpt dec (l.map f) = some (l.map g) := by
  intro l
  induction l with
  | nil => intro _; rfl
  | cons x rest ih =>
    intro h
    rw [List.map_cons, List.map_cons, mapMOpt, h x (List.mem_cons_self _ _),
      ih (fun y hy => h y (List.mem_cons_of_mem _ hy))]
    rfl

theorem takeWhile_of_forall {p : Char → Bool} :
    ∀ {l : Str}, (∀ c ∈ l, p c = true) → l.takeWhile p = l := by
  intro l
  induction l with
  | nil => intro _; rfl
  | cons c rest ih =>
    intro h
    rw [List.takeWhile_cons, h c (List.mem_cons_self _ _),
      ih (fun d hd => h d (List.mem_cons_of_mem _ hd))]
    simp

theorem dropThroughLastQM_of_no_qm {s : Str} (h : '?' ∉ s) :
    dropThroughLastQM s = s := by
  rw [dropThroughLastQM, takeWhile_of_forall, List.reverse_reverse]
  intro c hc
  rw [List.mem_reverse] at hc
  simp only [decide_eq_true_eq]
  intro hceq
  exact h (hceq ▸ hc)

/-- Both sides of every entry rendered by `encodeOptions` are ASCII. -/
def EntryOK (e : Str × EncVal) : Prop := StrASCII e.1 ∧ StrASCII (encValStr e.2)

theorem mem_partStr_chars {e : Str × EncVal} (hok : EntryOK e) {c : Char}
    (hc : c ∈ partStr e) : c.toNat = 61 ∨ (c.toNat ≠ 38 ∧ c.toNat ≠ 61 ∧ c.toNat ≠ 63) := by
  rw [partStr] at hc
  rcases List.mem_append.1 hc with h1 | h1
  · exact Or.inr (uriEncode_chars hok.1 h1)
  · rcases List.mem_cons.1 h1 with h2 | h2
    · subst h2; left; rfl
    · exact Or.inr (uriEncode_chars hok.2 h2)

/-- With every entry ASCII and at least one present, decoding the encoded
string yields exactly the decoded image of the sorted entries. -/
theorem decodeOptions_encodeOptions (o : GlobalContourTileOptions)
    (hok : ∀ e ∈ encEntries o, EntryOK e) (hne : encEntries o ≠ []) :
    decodeOptions (encodeOptions o) =
      some ((sortedEntriesTop (encEntries o)).map decEntry) := by
  have hperm : (sortedEntriesTop (encEntries o)).Perm (encEntries o) :=
    List.perm_insertionSort _ _
  have hok' : ∀ e ∈ sortedEntriesTop (encEntries o), EntryOK e :=
    fun e he => hok e (hperm.mem_iff.1 he)
  have hesne : sortedEntriesTop (encEntries o) ≠ [] := by
    intro hnil
    apply hne
    have hlen := hperm.length_eq
    rw [hnil] at hlen
    exact List.length_eq_zero.1 hlen.symm
  have henc : encodeOptions o = jsJoin '&' ((sortedEntriesTop (encEntries o)).map partStr) := rfl
  have hqm : '?' ∉ encodeOptions o := by
    rw [henc]
    intro hmem
    rcases mem_jsJoin hmem with h1 | ⟨p, hp, hcp⟩
    · cases h1
    · rcases List.mem_map.1 hp with ⟨e, he, hpe⟩
      subst hpe
      rcases mem_partStr_chars (hok' e he) hcp with h2 | h2
      · cases h2
      · exact h2.2.2 rfl
  rw [decodeOptions, dropThroughLastQM_of_no_qm hqm, henc, jsSplit_jsJoin]
  · exact mapMOpt_of_forall partStr decodePart decEntry _
      (fun e he => decodePart_partStr (hok' e he).1 (hok' e he).2)
  · simp only [ne_eq, List.map_eq_nil_iff]
    exact hesne
  · intro p hp hmem
    rcases List.mem_map.1 hp with ⟨e, he, hpe⟩
    subst hpe
    rcases mem_partStr_chars (hok' e he) hmem with h2 | h2
    · cases h2
    · exact h2.1 rfl

theorem encodeThresholds_ascii (t : List (Int × TVal)) :
    StrASCII (encodeThresholds t) := by
  intro c hc
  rw [encodeThresholds] at hc
  rcases mem_jsJoin hc with h1 | ⟨p, hp, hcp⟩
  · subst h1; decide
  · rcases List.mem_map.1 hp with ⟨e, _, hpe⟩
    subst hpe
    rcases mapPart_chars hcp with h | h | h <;> omega

theorem encodeLevels_ascii (l : List (Int × List Int)) :
    StrASCII (encodeLevels l) := by
  intro c hc
  rw [encodeLevels] at hc
  rcases mem_jsJoin hc with h1 | ⟨p, hp, hcp⟩
  · subst h1; decide
  · rcases List.mem_map.1 hp with ⟨e, _, hpe⟩
    subst hpe
    have hc2 := mem_starJoin ?_ hcp
    · rcases hc2 with h | h | h <;> omega
    · intro q hq
      rcases List.mem_cons.1 hq with h1 | h1
      · subst h1; exact intToStr_chars e.1
      · rcases List.mem_map.1 h1 with ⟨v, _, hv⟩
        subst hv; exact intToStr_chars v

/-! #### JS deep equality on the decoded objects -/

theorem findVal_of_mem_nodup {κ ν : Type} [DecidableEq κ] :
    ∀ {l : List (κ × ν)}, (l.map Prod.fst).Nodup → ∀ {k : κ} {v : ν},
      (k, v) ∈ l → findVal k l = some v := by
  intro l
  induction l with
  | nil => intro _ k v h; simp at h
  | cons e rest ih =>
    intro hnd k v h
    rw [List.map_cons] at hnd
    have hhead : e.1 ∉ rest.map Prod.fst := (List.nodup_cons.1 hnd).1
    have htail : (rest.map Prod.fst).Nodup := (List.nodup_cons.1 hnd).2
    rcases List.mem_cons.1 h with heq | htl
    · rw [findVal, if_pos (by rw [← heq])]
      rw [← heq]
    · have hne : ¬e.1 = k := by
        intro hk
        exact hhead (hk ▸ List.mem_map.2 ⟨(k, v), htl, rfl⟩)
      rw [findVal, if_neg hne]
      exact ih htail htl

theorem mapEqB_of_perm {a b : List (Option Int × MVal)} (hperm : a.Perm b)
    (hnd : (b.map Prod.fst).Nodup) : mapEqB a b = true := by
  have hnda : (a.map Prod.fst).Nodup :=
    ((hperm.map Prod.fst).nodup_iff).2 hnd
  rw [mapEqB, Bool.and_eq_true]
  constructor
  · rw [List.all_eq_true]
    intro e he
    rw [decide_eq_true_eq]
    exact findVal_of_mem_nodup hnd (by
      have : e ∈ b := hperm.mem_iff.1 he
      simpa using this)
  · rw [List.all_eq_true]
    intro e he
    rw [decide_eq_true_eq]
    exact findVal_of_mem_nodup hnda (by
      have : e ∈ a := hperm.mem_iff.2 he
      simpa using this)

/-- Alignment of the decoded entries with the original object's entries:
equal keys, deep-equal values. -/
def entryRel (x y : Str × DVal) : Prop := x.1 = y.1 ∧ dvalEqB x.2 y.2 = true

theorem entryRel_keys {a b : List (Str × DVal)} (h : List.Forall₂ entryRel a b) :
    a.map Prod.fst = b.map Prod.fst := by
  induction h with
  | nil => rfl
  | cons hr _ ih => simp only [List.map_cons, ih, hr.1]

theorem forall2_findVal {a b : List (Str × DVal)} (h : List.Forall₂ entryRel a b)
    (hnd : (a.map Prod.fst).Nodup) :
    ∀ k v, (k, v) ∈ a → ∃ w, findVal k b = some w ∧ dvalEqB v w = true := by
  induction h with
  | nil => intro k v hm; simp at hm
  | @cons x y a' b' hr htail ih =>
    intro k v hm
    rw [List.map_cons] at hnd
    have hhead : x.1 ∉ a'.map Prod.fst := (List.nodup_cons.1 hnd).1
    have hndtl : (a'.map Prod.fst).Nodup := (List.nodup_cons.1 hnd).2
    rcases List.mem_cons.1 hm with heq | htl
    · refine ⟨y.2, ?_, ?_⟩
      · rw [findVal, if_pos (by rw [← hr.1, ← heq])]
      · have hx2 : v = x.2 := by rw [← heq]
        rw [hx2]
        exact hr.2
    · have hne : ¬y.1 = k := by
        intro hk
        apply hhead
        rw [hr.1, hk]
        exact List.mem_map.2 ⟨(k, v), htl, rfl⟩
      rw [findVal, if_neg hne]
      exact ih hndtl k v htl

theorem forall2_mem_right {a b : List (Str × DVal)} (h : List.Forall₂ entryRel a b)
    (hnd : (b.map Prod.fst).Nodup) :
    ∀ k v, (k, v) ∈ b → ∃ w, (k, w) ∈ a ∧ dvalEqB w v = true := by
  induction h with
  | nil => intro k v hm; simp at hm
  | @cons x y a' b' hr htail ih =>
    intro k v hm
    rw [List.map_cons] at hnd
    have hndtl : (b'.map Prod.fst).Nodup := (List.nodup_cons.1 hnd).2
    rcases List.mem_cons.1 hm with heq | htl
    · refine ⟨x.2, ?_, ?_⟩
      · have hk : x.1 = k := by rw [hr.1, show y.1 = k from by rw [← heq]]
        exact (show (x.1, x.2) ∈ x :: a' from by simp) |> (hk ▸ ·)
      · have hv : v = y.2 := by rw [← heq]
        rw [hv]
        exact hr.2
    · rcases ih hndtl k v htl with ⟨w, hw1, hw2⟩
      exact ⟨w, List.mem_cons_of_mem _ hw1, hw2⟩

theorem objEqB_true {a' a b : List (Str × DVal)} (hperm : a'.Perm a)
    (h2 : List.Forall₂ entryRel a b) (hnd : (a.map Prod.fst).Nodup) :
    objEqB a' b = true := by
  have hndb : (b.map Prod.fst).Nodup := entryRel_keys h2 ▸ hnd
  have hnda' : (a'.map Prod.fst).Nodup := ((hperm.map Prod.fst).nodup_iff).2 hnd
  rw [objEqB, Bool.and_eq_true]
  constructor
  · rw [List.all_eq_true]
    intro e he
    have hea : (e.1, e.2) ∈ a := by
      have := hperm.mem_iff.1 he
      simpa using this
    rcases forall2_findVal h2 hnd e.1 e.2 hea with ⟨w, hw, hvw⟩
    rw [hw]
    exact hvw
  · rw [List.all_eq_true]
    intro e he
    rcases forall2_mem_right h2 hndb e.1 e.2 (by simpa using he) with ⟨w, hw1, hw2⟩
    have hwa' : (e.1, w) ∈ a' := hperm.mem_iff.2 hw1
    rw [findVal_of_mem_nodup hnda' hwa']
    exact hw2

/-! #### Aligning the decoded entries with the original object -/

theorem entryRel_append {a b c d : List (Str × DVal)}
    (h1 : List.Forall₂ entryRel a b) (h2 : List.Forall₂ entryRel c d) :
    List.Forall₂ entryRel (a ++ c) (b ++ d) := by
  induction h1 with
  | nil => simpa using h2
  | cons hr _ ih => exact .cons hr ih

theorem dvalSwitch_numKey {k : Str} (h1 : ¬k = kThresholds)
    (h2 : ¬(k = kLineLevels ∨ k = kPolygonLevels))
    (h3 : k = kExtent ∨ k = kMultiplier ∨ k = kOverzoom ∨ k = kBuffer) (s : Str) :
    dvalSwitch k s = DVal.num (jsNumber s) := by
  rw [dvalSwitch, if_neg h1, if_neg h2, if_pos h3]

theorem dvalSwitch_default {k : Str} (h1 : ¬k = kThresholds)
    (h2 : ¬(k = kLineLevels ∨ k = kPolygonLevels))
    (h3 : ¬(k = kExtent ∨ k = kMultiplier ∨ k = kOverzoom ∨ k = kBuffer)) (s : Str) :
    dvalSwitch k s = DVal.dstr s := by
  rw [dvalSwitch, if_neg h1, if_neg h2, if_neg h3]

/-- Piece alignment for a numeric field whose key the decode switch
`Number`-converts. -/
theorem forall2_pieceNum {k : Str} (v : Option Int) (h1 : ¬k = kThresholds)
    (h2 : ¬(k = kLineLevels ∨ k = kPolygonLevels))
    (h3 : k = kExtent ∨ k = kMultiplier ∨ k = kOverzoom ∨ k = kBuffer) :
    List.Forall₂ entryRel ((optPieceN k v).map decEntry) (rPieceN k v) := by
  cases v with
  | none => exact .nil
  | some n =>
    refine .cons ⟨rfl, ?_⟩ .nil
    show dvalEqB (dvalSwitch k (encValStr (EncVal.num n))) (DVal.num (some n)) = true
    rw [encValStr, dvalSwitch_numKey h1 h2 h3, jsNumber_intToStr]
    simp [dvalEqB]

/-- Piece alignment for a string-valued field (the decode switch's default
branch). -/
theorem forall2_pieceStr {k : Str} (v : Option Str) (h1 : ¬k = kThresholds)
    (h2 : ¬(k = kLineLevels ∨ k = kPolygonLevels))
    (h3 : ¬(k = kExtent ∨ k = kMultiplier ∨ k = kOverzoom ∨ k = kBuffer)) :
    List.Forall₂ entryRel ((optPieceS k v).map decEntry) (rPieceS k v) := by
  cases v with
  | none => exact .nil
  | some s =>
    refine .cons ⟨rfl, ?_⟩ .nil
    show dvalEqB (dvalSwitch k (encValStr (EncVal.estr s))) (DVal.dstr s) = true
    rw [encValStr, dvalSwitch_default h1 h2 h3]
    simp [dvalEqB]

/-- Thresholds values that are arrays (not scalars). -/
def isArrB : TVal → Bool
  | .arr _ => true
  | .num _ => false

theorem forall2_pieceThresholds {t : List (Int × TVal)} (hne : t ≠ [])
    (hnd : (t.map Prod.fst).Nodup) (harr : ∀ e ∈ t, isArrB e.2 = true) :
    List.Forall₂ entryRel
      ([(kThresholds, EncVal.estr (encodeThresholds t))].map decEntry)
      [(kThresholds, DVal.dmap (reprMapT t))] := by
  refine .cons ⟨rfl, ?_⟩ .nil
  show dvalEqB (dvalSwitch kThresholds (encValStr (EncVal.estr (encodeThresholds t))))
    (DVal.dmap (reprMapT t)) = true
  rw [encValStr, show dvalSwitch kThresholds (encodeThresholds t) =
    DVal.dmap (decodeThresholds (encodeThresholds t)) from by rw [dvalSwitch, if_pos rfl]]
  show mapEqB (decodeThresholds (encodeThresholds t)) (reprMapT t) = true
  rw [decodeThresholds_encodeThresholds hne]
  have hmapeq : (sortedMapEntries t).map
      (fun e => ((some e.1 : Option Int), MVal.arr ((tvalList e.2).map some))) =
      reprMapT (sortedMapEntries t) := by
    apply List.map_congr_left
    intro e he
    have he' : e ∈ t := (List.perm_insertionSort _ t).mem_iff.1 he
    have := harr e he'
    rcases e with ⟨k, tv⟩
    cases tv with
    | num n => simp [isArrB] at this
    | arr l => rfl
  rw [hmapeq]
  apply mapEqB_of_perm
  · exact (List.perm_insertionSort _ t).map _
  · show ((t.map (fun e => ((some e.1 : Option Int), reprTVal e.2))).map Prod.fst).Nodup
    rw [List.map_map]
    show (t.map (fun e => some e.1)).Nodup
    have : t.map (fun e => (some e.1 : Option Int)) =
        (t.map Prod.fst).map some := by rw [List.map_map]; rfl
    rw [this]
    exact hnd.map (Option.some_injective _)

theorem forall2_pieceLevels {k : Str} (hk : k = kLineLevels ∨ k = kPolygonLevels)
    {l : List (Int × List Int)} (hne : l ≠ []) (hnd : (l.map Prod.fst).Nodup) :
    List.Forall₂ entryRel
      ([(k, EncVal.estr (encodeLevels l))].map decEntry)
      [(k, DVal.dmap (reprMapL l))] := by
  have hknt : ¬k = kThresholds := by
    rcases hk with h | h <;> subst h <;> decide
  refine .cons ⟨rfl, ?_⟩ .nil
  show dvalEqB (dvalSwitch k (encValStr (EncVal.estr (encodeLevels l))))
    (DVal.dmap (reprMapL l)) = true
  rw [encValStr, show dvalSwitch k (encodeLevels l) =
    DVal.dmap (decodeLevels (encodeLevels l)) from by rw [dvalSwitch, if_neg hknt, if_pos hk]]
  show mapEqB (decodeLevels (encodeLevels l)) (reprMapL l) = true
  rw [decodeLevels_encodeLevels hne]
  have hmapeq : (sortedMapEntries l).map
      (fun e => ((some e.1 : Option Int), MVal.arr (e.2.map some))) =
      reprMapL (sortedMapEntries l) := rfl
  rw [hmapeq]
  apply mapEqB_of_perm
  · exact (List.perm_insertionSort _ l).map _
  · show ((l.map (fun e => ((some e.1 : Option Int), MVal.arr (e.2.map some)))).map
      Prod.fst).Nodup
    rw [List.map_map]
    show (l.map (fun e => some e.1)).Nodup
    have : l.map (fun e => (some e.1 : Option Int)) =
        (l.map Prod.fst).map some := by rw [List.map_map]; rfl
    rw [this]
    exact hnd.map (Option.some_injective _)

/-! #### Distinctness of the option keys -/

/-- All seventeen option keys, in the `encEntries` enumeration order. -/
def masterKeys : List Str :=
  [kMultiplier] ++ [kOverzoom] ++ [kElevationKey] ++ [kLevelKey] ++ [kContourLayer] ++
  [kExtent] ++ [kBuffer] ++ [kSubsampleBelow] ++ [kPolygonLayer] ++
  [kLowerElevationKey] ++ [kUpperElevationKey] ++ [kSpotGridSpacing] ++
  [kSpotSortOrder] ++ [kSpotLayer] ++ [kThresholds] ++ [kLineLevels] ++ [kPolygonLevels]

theorem masterKeys_nodup : masterKeys.Nodup := by decide

theorem optPieceN_keys (k : Str) (v : Option Int) :
    List.Sublist ((optPieceN k v).map Prod.fst) [k] := by
  cases v with
  | none => exact List.nil_sublist _
  | some n => exact List.Sublist.refl _

theorem optPieceS_keys (k : Str) (v : Option Str) :
    List.Sublist ((optPieceS k v).map Prod.fst) [k] := by
  cases v with
  | none => exact List.nil_sublist _
  | some s => exact List.Sublist.refl _

theorem threshPiece_keys (o : GlobalContourTileOptions) :
    List.Sublist ((match o.thresholds with
      | none => []
      | some t => [(kThresholds, EncVal.estr (encodeThresholds t))]).map Prod.fst)
      [kThresholds] := by
  cases o.thresholds with
  | none => exact List.nil_sublist _
  | some t => exact List.Sublist.refl _

theorem linePiece_keys (o : GlobalContourTileOptions) :
    List.Sublist ((match o.lineLevels with
      | none => []
      | some l => [(kLineLevels, EncVal.estr (encodeLevels l))]).map Prod.fst)
      [kLineLevels] := by
  cases o.lineLevels with
  | none => exact List.nil_sublist _
  | some l => exact List.Sublist.refl _

theorem polyPiece_keys (o : GlobalContourTileOptions) :
    List.Sublist ((match o.polygonLevels with
      | none => []
      | some p => [(kPolygonLevels, EncVal.estr (encodeLevels p))]).map Prod.fst)
      [kPolygonLevels] := by
  cases o.polygonLevels with
  | none => exact List.nil_sublist _
  | some p => exact List.Sublist.refl _

theorem encEntries_keys_nodup (o : GlobalContourTileOptions) :
    ((encEntries o).map Prod.fst).Nodup := by
  have hsub : List.Sublist ((encEntries o).map Prod.fst) masterKeys := by
    rw [encEntries, masterKeys]
    simp only [List.map_append]
    exact List.Sublist.append (List.Sublist.append (List.Sublist.append
      (List.Sublist.append (List.Sublist.append (List.Sublist.append
      (List.Sublist.append (List.Sublist.append (List.Sublist.append
      (List.Sublist.append (List.Sublist.append (List.Sublist.append
      (List.Sublist.append (List.Sublist.append (List.Sublist.append
      (List.Sublist.append
        (optPieceN_keys kMultiplier o.multiplier)
        (optPieceN_keys kOverzoom o.overzoom))
        (optPieceS_keys kElevationKey o.elevationKey))
        (optPieceS_keys kLevelKey o.levelKey))
        (optPieceS_keys kContourLayer o.contourLayer))
        (optPieceN_keys kExtent o.extent))
        (optPieceN_keys kBuffer o.buffer))
        (optPieceN_keys kSubsampleBelow o.subsampleBelow))
        (optPieceS_keys kPolygonLayer o.polygonLayer))
        (optPieceS_keys kLowerElevationKey o.lowerElevationKey))
        (optPieceS_keys kUpperElevationKey o.upperElevationKey))
        (optPieceN_keys kSpotGridSpacing o.spotGridSpacing))
        (optPieceS_keys kSpotSortOrder o.spotSortOrder))
        (optPieceS_keys kSpotLayer o.spotLayer))
        (threshPiece_keys o))
        (linePiece_keys o))
        (polyPiece_keys o)
  exact masterKeys_nodup.sublist hsub

/-! #### The amended round-trip theorem -/

/-- The well-formedness assumptions under which the round trip holds: at
least one option set, `subsampleBelow` and `spotGridSpacing` unset,
threshold values given as arrays, the three maps nonempty with distinct
zoom keys, and string fields ASCII. -/
def C1Hyp (o : GlobalContourTileOptions) : Prop :=
  o.subsampleBelow = none ∧
  o.spotGridSpacing = none ∧
  encEntries o ≠ [] ∧
  (∀ s, o.elevationKey = some s → StrASCII s) ∧
  (∀ s, o.levelKey = some s → StrASCII s) ∧
  (∀ s, o.contourLayer = some s → StrASCII s) ∧
  (∀ s, o.polygonLayer = some s → StrASCII s) ∧
  (∀ s, o.lowerElevationKey = some s → StrASCII s) ∧
  (∀ s, o.upperElevationKey = some s → StrASCII s) ∧
  (∀ s, o.spotSortOrder = some s → StrASCII s) ∧
  (∀ s, o.spotLayer = some s → StrASCII s) ∧
  (∀ t, o.thresholds = some t →
    t ≠ [] ∧ (t.map Prod.fst).Nodup ∧ ∀ e ∈ t, isArrB e.2 = true) ∧
  (∀ l, o.lineLevels = some l → l ≠ [] ∧ (l.map Prod.fst).Nodup) ∧
  (∀ p, o.polygonLevels = some p → p ≠ [] ∧ (p.map Prod.fst).Nodup)

instance decidableOptionForall {α : Type} (v : Option α) (P : α → Prop)
    [DecidablePred P] : Decidable (∀ x, v = some x → P x) :=
  match v with
  | none => isTrue (fun _ h => Option.noConfusion h)
  | some a =>
    if h : P a then
      isTrue (fun x hx => by injection hx with hx; exact hx ▸ h)
    else isFalse (fun hall => h (hall a rfl))

instance (o : GlobalContourTileOptions) : Decidable (C1Hyp o) := by
  unfold C1Hyp
  infer_instance

theorem entryOK_optPieceN {k : Str} (hk : StrASCII k) (v : Option Int) :
    ∀ e ∈ optPieceN k v, EntryOK e := by
  cases v with
  | none => intro e he; simp [optPieceN] at he
  | some n =>
    intro e he
    simp only [optPieceN, List.mem_singleton] at he
    subst he
    exact ⟨hk, intToStr_ascii n⟩

theorem entryOK_optPieceS {k : Str} (hk : StrASCII k) {v : Option Str}
    (hv : ∀ s, v = some s → StrASCII s) : ∀ e ∈ optPieceS k v, EntryOK e := by
  cases v with
  | none => intro e he; simp [optPieceS] at he
  | some s =>
    intro e he
    simp only [optPieceS, List.mem_singleton] at he
    subst he
    exact ⟨hk, hv s rfl⟩

theorem encEntries_ok (o : GlobalContourTileOptions) (h : C1Hyp o) :
    ∀ e ∈ encEntries o, EntryOK e := by
  obtain ⟨_, _, _, hek, hlk, hcl, hpl, hlo, hup, hsso, hsl, _, _, _⟩ := h
  intro e he
  rw [encEntries] at he
  simp only [List.mem_append] at he
  rcases he with (((((((((((((((h1 | h2) | h3) | h4) | h5) | h6) | h7) | h8) | h9) |
    h10) | h11) | h12) | h13) | h14) | h15) | h16) | h17
  · exact entryOK_optPieceN (by decide) _ e h1
  · exact entryOK_optPieceN (by decide) _ e h2
  · exact entryOK_optPieceS (by decide) hek e h3
  · exact entryOK_optPieceS (by decide) hlk e h4
  · exact entryOK_optPieceS (by decide) hcl e h5
  · exact entryOK_optPieceN (by decide) _ e h6
  · exact entryOK_optPieceN (by decide) _ e h7
  · exact entryOK_optPieceN (by decide) _ e h8
  · exact entryOK_optPieceS (by decide) hpl e h9
  · exact entryOK_optPieceS (by decide) hlo e h10
  · exact entryOK_optPieceS (by decide) hup e h11
  · exact entryOK_optPieceN (by decide) _ e h12
  · exact entryOK_optPieceS (by decide) hsso e h13
  · exact entryOK_optPieceS (by decide) hsl e h14
  · rcases hth : o.thresholds with _ | t
    · rw [hth] at h15; simp at h15
    · rw [hth] at h15
      simp only [List.mem_singleton] at h15
      subst h15
      exact ⟨show StrASCII kThresholds from by decide, encodeThresholds_ascii t⟩
  · rcases hll : o.lineLevels with _ | l
    · rw [hll] at h16; simp at h16
    · rw [hll] at h16
      simp only [List.mem_singleton] at h16
      subst h16
      exact ⟨show StrASCII kLineLevels from by decide, encodeLevels_ascii l⟩
  · rcases hpll : o.polygonLevels with _ | p
    · rw [hpll] at h17; simp at h17
    · rw [hpll] at h17
      simp only [List.mem_singleton] at h17
      subst h17
      exact ⟨show StrASCII kPolygonLevels from by decide, encodeLevels_ascii p⟩

theorem forall2_encRepr (o : GlobalContourTileOptions) (h : C1Hyp o) :
    List.Forall₂ entryRel ((encEntries o).map decEntry) (reprOpts o) := by
  obtain ⟨hsub, hspot, _, _, _, _, _, _, _, _, _, hth, hll, hpol⟩ := h
  have p8 : List.Forall₂ entryRel
      ((optPieceN kSubsampleBelow o.subsampleBelow).map decEntry)
      (rPieceN kSubsampleBelow o.subsampleBelow) := by
    rw [hsub]; exact .nil
  have p12 : List.Forall₂ entryRel
      ((optPieceN kSpotGridSpacing o.spotGridSpacing).map decEntry)
      (rPieceN kSpotGridSpacing o.spotGridSpacing) := by
    rw [hspot]; exact .nil
  have p15 : List.Forall₂ entryRel
      ((match o.thresholds with
        | none => []
        | some t => [(kThresholds, EncVal.estr (encodeThresholds t))]).map decEntry)
      (match o.thresholds with
        | none => []
        | some t => [(kThresholds, DVal.dmap (reprMapT t))]) := by
    rcases hth' : o.thresholds with _ | t
    · exact .nil
    · obtain ⟨hne, hnd, harr⟩ := hth t hth'
      exact forall2_pieceThresholds hne hnd harr
  have p16 : List.Forall₂ entryRel
      ((match o.lineLevels with
        | none => []
        | some l => [(kLineLevels, EncVal.estr (encodeLevels l))]).map decEntry)
      (match o.lineLevels with
        | none => []
        | some l => [(kLineLevels, DVal.dmap (reprMapL l))]) := by
    rcases hll' : o.lineLevels with _ | l
    · exact .nil
    · obtain ⟨hne, hnd⟩ := hll l hll'
      exact forall2_pieceLevels (Or.inl rfl) hne hnd
  have p17 : List.Forall₂ entryRel
      ((match o.polygonLevels with
        | none => []
        | some p => [(kPolygonLevels, EncVal.estr (encodeLevels p))]).map decEntry)
      (match o.polygonLevels with
        | none => []
        | some p => [(kPolygonLevels, DVal.dmap (reprMapL p))]) := by
    rcases hpol' : o.polygonLevels with _ | p
    · exact .nil
    · obtain ⟨hne, hnd⟩ := hpol p hpol'
      exact forall2_pieceLevels (Or.inr rfl) hne hnd
  rw [encEntries, reprOpts]
  simp only [List.map_append]
  exact entryRel_append (entryRel_append (entryRel_append (entryRel_append
    (entryRel_append (entryRel_append (entryRel_append (entryRel_append
    (entryRel_append (entryRel_append (entryRel_append (entryRel_append
    (entryRel_append (entryRel_append (entryRel_append (entryRel_append
      (forall2_pieceNum o.multiplier (by decide) (by decide) (by decide))
      (forall2_pieceNum o.overzoom (by decide) (by decide) (by decide)))
      (forall2_pieceStr o.elevationKey (by decide) (by decide) (by decide)))
      (forall2_pieceStr o.levelKey (by decide) (by decide) (by decide)))
      (forall2_pieceStr o.contourLayer (by decide) (by decide) (by decide)))
      (forall2_pieceNum o.extent (by decide) (by decide) (by decide)))
      (forall2_pieceNum o.buffer (by decide) (by decide) (by decide)))
      p8)
      (forall2_pieceStr o.polygonLayer (by decide) (by decide) (by decide)))
      (forall2_pieceStr o.lowerElevationKey (by decide) (by decide) (by decide)))
      (forall2_pieceStr o.upperElevationKey (by decide) (by decide) (by decide)))
      p12)
      (forall2_pieceStr o.spotSortOrder (by decide) (by decide) (by decide)))
      (forall2_pieceStr o.spotLayer (by decide) (by decide) (by decide)))
      p15)
      p16)
      p17

/-- C1 amended: `decodeOptions ∘ encodeOptions` recovers a JS-deep-equal
object for every options value with at least one field set, whose
`subsampleBelow` and `spotGridSpacing` are unset, whose thresholds values
are arrays, and whose zoom maps are nonempty with distinct keys (string
fields ASCII). -/
theorem c1_amended_roundtrip (o : GlobalContourTileOptions) (h : C1Hyp o) :
    ∃ d, decodeOptions (encodeOptions o) = some d ∧ objEqB d (reprOpts o) = true := by
  refine ⟨_, decodeOptions_encodeOptions o (encEntries_ok o h) h.2.2.1, ?_⟩
  have hkeys : ((encEntries o).map decEntry).map Prod.fst =
      (encEntries o).map Prod.fst := by
    rw [List.map_map]
    apply List.map_congr_left
    intro e _
    rfl
  have hnodup : (((encEntries o).map decEntry).map Prod.fst).Nodup := by
    rw [hkeys]
    exact encEntries_keys_nodup o
  exact objEqB_true ((List.perm_insertionSort _ (encEntries o)).map decEntry)
    (forall2_encRepr o h) hnodup

/-- Demonstration options for the C1 witness: thresholds, line and polygon
levels with negative elevations, plus scalar and string fields. -/
def c1demo : GlobalContourTileOptions :=
  { multiplier := some 1, extent := some 4096, overzoom := some 1, buffer := some 1,
    elevationKey := some ("ele").data,
    thresholds := some [(2, TVal.arr [5]), (10, TVal.arr [50, 100])],
    lineLevels := some [(11, [-100, -50, 0])],
    polygonLevels := some [(11, [-100, 0])] }

/-- C1 witness: the amended round trip holds at a concrete configuration
with negative elevations. -/
theorem c1_amended_roundtrip_witness :
    C1Hyp c1demo ∧ ∃ d, decodeOptions (encodeOptions c1demo) = some d ∧
      objEqB d (reprOpts c1demo) = true :=
  ⟨by decide, c1_amended_roundtrip c1demo (by decide)⟩

end MC
